import Mathlib

/-!
# grpctl: CUE schema generation from protobuf files (cmd/cue.go, cmd/add.go)

A shallow embedding of the two Go source files of the repository.

* A Go `string` is modelled as the list of its characters (`GoString`).
* The Go standard-library helpers the code calls (`strings.Split`,
  `strings.ReplaceAll`, `strings.HasPrefix`, `filepath.Clean`, `filepath.Join`,
  `filepath.Base`, `filepath.Dir`) are written out as executable functions
  following their documented Unix behaviour.
* Everything outside the process (globbing, the proto parser, the CUE
  libraries, HTTP, failures of file-system calls) is an oracle in `Env`.
* The process state is a `World`: a flat file system plus the trace of the
  observable calls made so far.
* Recursion of `generateCUEFile` is bounded by a fuel argument that stands for
  the recursion depth; `none` means that the depth did not suffice.
-/

namespace Grpctl

/-! ## Strings -/

/-- A Go string, as the list of its characters. -/
abbrev GoString := List Char

/-- An `error` value, identified with its message (`err.Error()`). -/
abbrev Err := GoString

/-- Go `strings.Split(s, sep)` for a one-character separator: always at least
one segment, `n + 1` segments for `n` occurrences of the separator. -/
def stringsSplit (sep : Char) : GoString → List GoString
  | [] => [[]]
  | c :: cs =>
    match stringsSplit sep cs with
    | [] => [[]]
    | seg :: rest => if c = sep then [] :: seg :: rest else (c :: seg) :: rest

/-- Go `strings.Join(elems, sep)`. -/
def stringsJoin (sep : GoString) : List GoString → GoString
  | [] => []
  | [x] => x
  | x :: y :: rest => x ++ sep ++ stringsJoin sep (y :: rest)

/-- Worker of `stringsReplaceAll`: `skip` counts the characters of a match that
are still to be dropped; matches are found left to right and do not overlap. -/
def replaceGo (old new : GoString) : Nat → GoString → GoString
  | _, [] => if old = [] then new else []
  | k + 1, _ :: cs => replaceGo old new k cs
  | 0, c :: cs =>
    if old = [] then new ++ c :: replaceGo old new 0 cs
    else if old.isPrefixOf (c :: cs) then new ++ replaceGo old new (old.length - 1) cs
    else c :: replaceGo old new 0 cs

/-- Go `strings.ReplaceAll(s, old, new)`. -/
def stringsReplaceAll (s old new : GoString) : GoString :=
  replaceGo old new 0 s

/-- Go `strings.HasPrefix(s, prefix)`. -/
def stringsHasPrefix (s pre : GoString) : Bool :=
  pre.isPrefixOf s

/-! ## Paths (package `path/filepath`, Unix) -/

/-- One step of `filepath.Clean` over the path elements; `stack` holds the
elements kept so far, last one first.  Empty and `.` elements are dropped; a
`..` element removes the preceding real element, is dropped at the root of a
rooted path, and is kept at the start of a relative path. -/
def cleanStep (rooted : Bool) (stack : List GoString) (c : GoString) : List GoString :=
  if c = [] ∨ c = ['.'] then stack
  else if c = ['.', '.'] then
    match stack with
    | [] => if rooted then [] else [c]
    | top :: rest =>
      if top ≠ ['.', '.'] then rest
      else if rooted then stack else c :: stack
  else c :: stack

/-- Go `filepath.Clean(path)`. -/
def filepathClean (path : GoString) : GoString :=
  if path = [] then ['.']
  else
    let rooted := path.head? = some '/'
    let kept := ((stringsSplit '/' path).foldl (cleanStep rooted) []).reverse
    let body := stringsJoin ['/'] kept
    if rooted then '/' :: body
    else if body = [] then ['.'] else body

/-- Go `filepath.Join(elem...)`: the elements from the first non-empty one on,
joined by `/` and cleaned; the empty string when every element is empty. -/
def filepathJoin (elem : List GoString) : GoString :=
  match elem.dropWhile (fun e => e = []) with
  | [] => []
  | es => filepathClean (stringsJoin ['/'] es)

/-- Go `filepath.Base(path)`. -/
def filepathBase (path : GoString) : GoString :=
  if path = [] then ['.']
  else
    let stripped := path.reverse.dropWhile (fun c => c = '/')
    let last := stripped.takeWhile (fun c => c ≠ '/')
    if last = [] then ['/'] else last.reverse

/-- Go `filepath.Dir(path)`: everything up to the last separator, cleaned. -/
def filepathDir (path : GoString) : GoString :=
  filepathClean (path.reverse.dropWhile (fun c => c ≠ '/')).reverse

/-! ## The world: file system, trace, oracles -/

/-- What a path of the file system holds. -/
inductive Node where
  | file (content : GoString)
  | dir
  deriving DecidableEq, Repr

/-- The file system, keyed by cleaned path; `none` means that nothing exists
at the path.  Ancestor directories are not tracked. -/
abbrev FS := GoString → Option Node

/-- A CUE syntax tree (`*ast.File`): only its `Filename` is inspected. -/
structure CueFile where
  Filename : GoString
  body : GoString
  deriving DecidableEq, Repr

/-- A compiled CUE instance (`*cue.Instance`), never inspected by the code. -/
structure Instance where
  text : GoString
  deriving DecidableEq, Repr

/-- The top-level elements of a parsed proto file that `extractProto`
distinguishes: `proto.Option` (with `Constant.Source`), `proto.Import` (with
`Filename`), and everything else. -/
inductive Element where
  | option (source : GoString)
  | imp (filename : GoString)
  | other
  deriving DecidableEq, Repr

/-- The observable calls of a run, in the order in which they are made.
Writes to standard output are not recorded. -/
inductive Event where
  /-- The call `zglob.Glob(pattern)`. -/
  | glob (pattern : GoString)
  /-- The call `extractProto(path)`: the file is opened and parsed. -/
  | extractProto (path : GoString)
  /-- The call `protobuf.Extract(path, ...)`: the schema of the file is produced. -/
  | protobufExtract (path : GoString)
  /-- The file at `path` has been generated: `generateCUEFile` returns without
  error for it, with the in-memory instance or with the schema written. -/
  | generated (path : GoString)
  /-- The call `os.MkdirAll(path, _)`. -/
  | mkdirAll (path : GoString)
  /-- The call `os.Create(path)`. -/
  | create (path : GoString)
  /-- Data is written to the file opened at `path`. -/
  | write (path : GoString) (data : GoString)
  /-- The call `http.Get(url)`. -/
  | httpGet (url : GoString)
  /-- The call `r.Compile(filename, src)`. -/
  | compile (filename : GoString) (src : GoString)
  /-- The call `r.CompileFile(cueFile)`. -/
  | compileFile (file : CueFile)
  /-- The call `cue.Merge(a, b)`. -/
  | merge (a b : Instance)
  /-- The call `ins.Value().Validate()`. -/
  | validate (ins : Instance)
  deriving DecidableEq, Repr

/-- The state of a run: the file system and the calls made so far. -/
structure World where
  fs : FS
  trace : List Event

/-- How a call ends: a normal return, a returned `error`, a run-time panic, or
the process exiting with a status code. -/
inductive Res (α : Type) where
  | ok (a : α)
  | err (e : Err)
  | panic
  | exit (code : Nat)
  deriving DecidableEq, Repr

/-- Everything the code obtains from outside the process. -/
structure Env where
  /-- The library call `zglob.Glob`. -/
  glob : GoString → Except Err (List GoString)
  /-- Opening and parsing the proto file at a path (`os.Open`, `parser.Parse`):
  the top-level elements of the definition.  Proto sources do not change
  during a run. -/
  parse : GoString → Except Err (List Element)
  /-- The library call `protobuf.Extract(p, nil, cfg)`, with `cfg.Paths` made of
  the proto root and `wellKnownRoot`. -/
  protobufExtract : (protoRoot p : GoString) → Except Err CueFile
  /-- The library call `r.CompileFile`. -/
  compileFile : CueFile → Except Err Instance
  /-- The library call `format.Node` on a syntax tree. -/
  formatNode : CueFile → Except Err GoString
  /-- The library call `http.Get`: the body of the response. -/
  httpGet : GoString → Except Err GoString
  /-- Whether `os.MkdirAll` of a path that is not yet there fails. -/
  mkdirAllErr : FS → GoString → Option Err
  /-- Whether `os.Create` fails. -/
  createErr : FS → GoString → Option Err
  /-- Whether writing data to an open file fails, and then what had been
  written when it failed. -/
  writeErr : FS → GoString → GoString → Option (GoString × Err)
  /-- The library call `strcase.ToLowerCamel`. -/
  toLowerCamel : GoString → GoString
  /-- The library call `r.Compile(filename, src)`. -/
  compile : GoString → GoString → Except Err Instance
  /-- The library call `cue.Merge(a, b)`. -/
  merge : Instance → Instance → Instance
  /-- The library call `ins.Value().Validate()`. -/
  validate : Instance → Option Err
  /-- The library calls `format.Node(ins.Value().Syntax(cue.Raw()))`, whose
  error the code drops. -/
  formatInstance : Instance → GoString
  /-- The helper `loadSchemasFromProto(protoRoot, globs)`, defined in a file
  of the repository that is not among the sources: any behaviour is allowed,
  `none` standing for a call that does not return. -/
  loadSchemasFromProto : GoString → List GoString → World → Option (World × Res Instance)

/-- Append a call to the trace. -/
def World.log (w : World) (e : Event) : World :=
  { w with trace := w.trace ++ [e] }

/-- Put a node at a path. -/
def World.put (w : World) (path : GoString) (n : Node) : World :=
  { w with fs := fun q => if q = filepathClean path then some n else w.fs q }

/-- Go `os.Stat(path)`: the node at the path, `none` for the error return
(the path is treated as absent). -/
def World.stat (w : World) (path : GoString) : Option Node :=
  w.fs (filepathClean path)

/-- Go `os.MkdirAll(path, perm)`: nothing to do when the path is a directory,
an error when it is a file, otherwise the directory is created unless the
system call fails. -/
def World.mkdirAll (env : Env) (w : World) (path : GoString) : World × Option Err :=
  let w1 := w.log (.mkdirAll path)
  match w.stat path with
  | some .dir => (w1, none)
  | some (.file _) => (w1, some ("mkdir ".toList ++ path ++ ": not a directory".toList))
  | none =>
    match env.mkdirAllErr w.fs path with
    | some e => (w1, some e)
    | none => (w1.put path .dir, none)

/-- Go `os.Create(path)`: the file exists afterwards and is empty, unless the
call fails. -/
def World.create (env : Env) (w : World) (path : GoString) : World × Option Err :=
  let w1 := w.log (.create path)
  match env.createErr w.fs path with
  | some e => (w1, some e)
  | none => (w1.put path (.file []), none)

/-- Writing `data` to the file just created at `path` (`File.Write`,
`File.WriteString`, `io.Copy`): the file holds the data afterwards, or what had
been written when the write failed. -/
def World.write (env : Env) (w : World) (path data : GoString) : World × Option Err :=
  let w1 := w.log (.write path data)
  match env.writeErr w.fs path data with
  | some (written, e) => (w1.put path (.file written), some e)
  | none => (w1.put path (.file data), none)

/-- Go `ioutil.WriteFile(path, data, perm)`: create or truncate, then write. -/
def World.writeFile (env : Env) (w : World) (path data : GoString) : World × Option Err :=
  match w.create env path with
  | (w1, some e) => (w1, some e)
  | (w1, none) => w1.write env path data

/-! ## cmd/cue.go -/

/-- The message of the error `fmt.Errorf("no protofiles")`. -/
def noProtofiles : Err := "no protofiles".toList

/-- The extension of a CUE file. -/
def cueExtension : GoString := ".cue".toList

/-- The registry `wellKnowns`: import path to download URL. -/
def wellKnowns : List (GoString × GoString) :=
  [("google/protobuf/timestamp.proto".toList,
    "https://raw.githubusercontent.com/protocolbuffers/protobuf/master/src/google/protobuf/timestamp.proto".toList)]

/-- The cache directory `wellKnownRoot`. -/
def wellKnownRoot : GoString := "./tmp/wellknowns".toList

/-- The test `_, ok := wellKnowns[imp]`. -/
def isWellKnown (imp : GoString) : Bool :=
  (wellKnowns.lookup imp).isSome

/-- The loop of `extractProto` over `def.Elements`: an option sets the package
name (the last one wins), an import is appended to the imports. -/
def scanElements : List Element → GoString × List GoString → GoString × List GoString
  | [], acc => acc
  | .option source :: rest, (_, imports) => scanElements rest (source, imports)
  | .imp filename :: rest, (pkgName, imports) => scanElements rest (pkgName, imports ++ [filename])
  | .other :: rest, acc => scanElements rest acc

/-- What `extractProto(filePath)` returns: package name and imports, or the
error of opening or parsing the file. -/
def protoInfo (env : Env) (filePath : GoString) : Except Err (GoString × List GoString) :=
  match env.parse filePath with
  | .error e => .error e
  | .ok elements => .ok (scanElements elements ([], []))

/-- The function `extractProto`, with its call recorded. -/
def extractProto (env : Env) (filePath : GoString) (w : World) :
    World × Except Err (GoString × List GoString) :=
  (w.log (.extractProto filePath), protoInfo env filePath)

/-- The function `downloadFile(url, filepath)`: the file is created first, then
the request is made, then the body is copied into the file. -/
def downloadFile (env : Env) (url path : GoString) (w : World) : World × Option Err :=
  match w.create env path with
  | (w1, some e) => (w1, some e)
  | (w1, none) =>
    let w2 := w1.log (.httpGet url)
    match env.httpGet url with
    | .error e => (w2, some e)
    | .ok body => w2.write env path body

/-- The cache path `filepath.Join(wellKnownRoot, key)` of a registry entry. -/
def cachePath (key : GoString) : GoString :=
  filepathJoin [wellKnownRoot, key]

/-- The first loop of `downloadWellKnowns`: the entries of the registry whose
cache path cannot be stat-ed. -/
def downloadTargets (w : World) : List (GoString × GoString) :=
  wellKnowns.filter (fun kv => (w.stat (cachePath kv.1)).isNone)

/-- The second loop of `downloadWellKnowns`, over the targets. -/
def downloadLoop (env : Env) : List (GoString × GoString) → World → World × Option Err
  | [], w => (w, none)
  | (key, url) :: rest, w =>
    let p := cachePath key
    match w.mkdirAll env (filepathDir p) with
    | (w1, some e) => (w1, some e)
    | (w1, none) =>
      match downloadFile env url p w1 with
      | (w2, some e) => (w2, some e)
      | (w2, none) => downloadLoop env rest w2

/-- The function `downloadWellKnowns`. -/
def downloadWellKnowns (env : Env) (w : World) : World × Option Err :=
  let targets := downloadTargets w
  if targets.length = 0 then (w, none)
  else downloadLoop env targets w

/-- The function `generateModuleFiles(moduleName)`. -/
def generateModuleFiles (env : Env) (moduleName : GoString) (w : World) : World × Option Err :=
  match w.mkdirAll env "./cue.mod/pkg".toList with
  | (w1, some e) => (w1, some e)
  | (w1, none) =>
    match w1.mkdirAll env "./cue.mod/usr".toList with
    | (w2, some e) => (w2, some e)
    | (w2, none) =>
      match w2.create env "./cue.mod/module.cue".toList with
      | (w3, some e) => (w3, some e)
      | (w3, none) =>
        w3.write env "./cue.mod/module.cue".toList
          ("module: \"".toList ++ moduleName ++ "\"".toList)

/-- The path `p` that `generateCUEFile` works on: the argument itself when it
starts with the proto root, else the argument joined to the proto root. -/
def resolvePath (protoRoot protoFile : GoString) : GoString :=
  if stringsHasPrefix protoFile protoRoot then protoFile
  else filepathJoin [protoRoot, protoFile]

/-- The output directory `outDir` of `generateCUEFile` (line 130). -/
def outDir (moduleName pkg : GoString) : GoString :=
  stringsReplaceAll ((stringsSplit ';' pkg).headD []) (moduleName ++ ['/']) []

/-- The output path `outPath` of `generateCUEFile` (line 136). -/
def outPath (moduleName pkg filename : GoString) : GoString :=
  filepathJoin [outDir moduleName pkg, filepathBase filename]

/-- The part of `generateCUEFile` after the loop over the imports (lines 115
to 153): the schema is extracted, then compiled in memory when the file has no
package, else written under the output directory. -/
def emitSchema (env : Env) (moduleName protoRoot p pkg : GoString) (w : World) :
    World × Except Err (Option Instance) :=
  let w1 := w.log (.protobufExtract p)
  match env.protobufExtract protoRoot p with
  | .error e => (w1, .error e)
  | .ok cueFile =>
    if pkg = [] then
      let w2 := w1.log (.compileFile cueFile)
      match env.compileFile cueFile with
      | .error e => (w2, .error e)
      | .ok result => (w2.log (.generated p), .ok (some result))
    else
      match w1.mkdirAll env (outDir moduleName pkg) with
      | (w2, some e) => (w2, .error e)
      | (w2, none) =>
        let path := outPath moduleName pkg cueFile.Filename
        match w2.create env path with
        | (w3, some e) => (w3, .error e)
        | (w3, none) =>
          match env.formatNode cueFile with
          | .error e => (w3, .error e)
          | .ok b =>
            match w3.write env path b with
            | (w4, some e) => (w4, .error e)
            | (w4, none) => (w4.log (.generated p), .ok none)

/-- The loop of `generateCUEFile` over the imports (lines 103 to 113), `gen`
being the recursive call: a well-known import is skipped, the first error
stops the loop, and `none` is a recursive call that does not return. -/
def importLoop (gen : GoString → World → Option (World × Except Err (Option Instance))) :
    List GoString → World → Option (World × Option Err)
  | [], w => some (w, none)
  | imp :: rest, w =>
    if isWellKnown imp then importLoop gen rest w
    else
      match gen imp w with
      | none => none
      | some (w1, .error e) => some (w1, some e)
      | some (w1, .ok _) => importLoop gen rest w1

/-- The function `generateCUEFile(moduleName, protoRoot, protoFile)`.  The
first argument bounds the recursion depth, which the code does not bound:
`none` is returned when the bound is reached. -/
def generateCUEFile (env : Env) :
    Nat → GoString → GoString → GoString → World → Option (World × Except Err (Option Instance))
  | 0, _, _, _, _ => none
  | fuel + 1, moduleName, protoRoot, protoFile, w =>
    let p := resolvePath protoRoot protoFile
    match extractProto env p w with
    | (w1, .error e) => some (w1, .error e)
    | (w1, .ok (pkg, imports)) =>
      match importLoop (generateCUEFile env fuel moduleName protoRoot) imports w1 with
      | none => none
      | some (w2, some e) => some (w2, .error e)
      | some (w2, none) => some (emitSchema env moduleName protoRoot p pkg w2)

/-- The first loop of `generateCUEModule` (lines 39 to 46): the globs are
expanded and the results concatenated. -/
def globLoop (env : Env) : List GoString → List GoString → World → World × Except Err (List GoString)
  | [], protoFiles, w => (w, .ok protoFiles)
  | glob :: rest, protoFiles, w =>
    let w1 := w.log (.glob glob)
    match env.glob glob with
    | .error e => (w1, .error e)
    | .ok pFiles => globLoop env rest (protoFiles ++ pFiles) w1

/-- The second loop of `generateCUEModule` (lines 57 to 64): the package of
every proto file, with `;` replaced by `:`. -/
def cueImportsLoop (env : Env) : List GoString → List GoString → World →
    World × Except Err (List GoString)
  | [], cueImports, w => (w, .ok cueImports)
  | protoFile :: rest, cueImports, w =>
    match extractProto env protoFile w with
    | (w1, .error e) => (w1, .error e)
    | (w1, .ok (pkg, _)) =>
      cueImportsLoop env rest (cueImports ++ [stringsReplaceAll pkg [';'] [':']]) w1

/-- The expression `filepath.Join(strings.Split(cueImports[0], "/")[:2]...)`
(lines 68 and 69): `none` is the run-time panic of slicing `[:2]` a slice of
capacity one, which `strings.Split` returns when there is no `/`. -/
def moduleNameOf (first : GoString) : Option GoString :=
  match stringsSplit '/' first with
  | s0 :: s1 :: _ => some (filepathJoin [s0, s1])
  | _ => none

/-- The last loop of `generateCUEModule` (lines 76 to 86): every proto file is
generated, and the instances that are not nil are collected. -/
def instancesLoop (env : Env) (fuel : Nat) (moduleName protoRoot : GoString) :
    List GoString → List Instance → World → Option (World × Except Err (List Instance))
  | [], instances, w => some (w, .ok instances)
  | protoFile :: rest, instances, w =>
    match generateCUEFile env fuel moduleName protoRoot protoFile w with
    | none => none
    | some (w1, .error e) => some (w1, .error e)
    | some (w1, .ok none) => instancesLoop env fuel moduleName protoRoot rest instances w1
    | some (w1, .ok (some ins)) =>
      instancesLoop env fuel moduleName protoRoot rest (instances ++ [ins]) w1

/-- Lines 66 to 88 of `generateCUEModule`: the module name, the module files,
the generation of every proto file. -/
def generateFrom (env : Env) (fuel : Nat) (protoRoot : GoString)
    (protoFiles cueImports : List GoString) (w : World) :
    Option (World × Res (List GoString × List Instance)) :=
  let finish := fun (moduleName : GoString) (w1 : World) =>
    match instancesLoop env fuel moduleName protoRoot protoFiles [] w1 with
    | none => none
    | some (w2, .error e) => some (w2, Res.err e)
    | some (w2, .ok instances) => some (w2, Res.ok (cueImports, instances))
  match cueImports with
  | [] => finish [] w
  | first :: _ =>
    match moduleNameOf first with
    | none => some (w, .panic)
    | some moduleName =>
      match generateModuleFiles env moduleName w with
      | (w1, some e) => some (w1, .err e)
      | (w1, none) => finish moduleName w1

/-- The function `generateCUEModule(protoRoot, globs)`; the first argument
bounds the recursion depth of `generateCUEFile`. -/
def generateCUEModule (env : Env) (fuel : Nat) (protoRoot : GoString) (globs : List GoString)
    (w : World) : Option (World × Res (List GoString × List Instance)) :=
  match globLoop env globs [] w with
  | (w1, .error e) => some (w1, .err e)
  | (w1, .ok protoFiles) =>
    if protoFiles.length = 0 then some (w1, .err noProtofiles)
    else
      match downloadWellKnowns env w1 with
      | (w2, some e) => some (w2, .err e)
      | (w2, none) =>
        match cueImportsLoop env protoFiles [] w2 with
        | (w3, .error e) => some (w3, .err e)
        | (w3, .ok cueImports) => generateFrom env fuel protoRoot protoFiles cueImports w3

/-! ## cmd/add.go -/

/-- The directory `testDir` of `Add`. -/
def testDir : GoString := "tests".toList

/-- The template `testCaseSchema` executed with `Name` set to the test name:
the name is inserted as it is. -/
def testCaseSchema (testName : GoString) : GoString :=
  "name: \"".toList ++ testName ++
    "\"\nInput: \x7b\x7d\nOutput: \x7b\x7d\nTest :: \x7b\n\tmethod: string\n\tinput: Input\n\toutput: Output\n\x7d\ncases: [...Test] & [\n\t\x7b\n\t\tmethod: \"\"\n\t\tinput: \x7b\x7d\n\t\toutput: \x7b\x7d\n\t\x7d,\n]\n".toList

/-- The path `outPath` of `Add` (line 27). -/
def testCasePath (env : Env) (testName : GoString) : GoString :=
  filepathJoin [testDir, env.toLowerCamel testName ++ cueExtension]

/-- Lines 71 to 84 of `Add`: the instance is validated, formatted and written
to the test-case file. -/
def writeTestCase (env : Env) (path : GoString) (ins : Instance) (w : World) :
    World × Res Unit :=
  let w1 := w.log (.validate ins)
  match env.validate ins with
  | some e => (w1, .err e)
  | none =>
    match w1.writeFile env path (env.formatInstance ins) with
    | (w2, some e) => (w2, .err e)
    | (w2, none) => (w2, .ok ())

/-- The proto root of `Add` (lines 29 to 32): the flag `proto_path`, or `./`
when the flag is empty. -/
def protoRootOf (protoPath : GoString) : GoString :=
  if protoPath = [] then "./".toList else protoPath

/-- The function `Add`, given the positional arguments and the values of the
flags `proto_path` and `protofiles`; `none` is a call that does not return. -/
def Add (env : Env) (args : List GoString) (protoPath : GoString) (protoFiles : List GoString)
    (w : World) : Option (World × Res Unit) :=
  match args with
  | [] => some (w, .exit 1)
  | testName :: _ =>
    let path := testCasePath env testName
    let protoRoot := protoRootOf protoPath
    match w.mkdirAll env testDir with
    | (w1, some e) => some (w1, .err e)
    | (w1, none) =>
      match w1.stat path with
      | some _ => some (w1, .ok ())
      | none =>
        let filename := env.toLowerCamel testName ++ cueExtension
        let base := testCaseSchema testName
        let w2 := w1.log (.compile filename base)
        match env.compile filename base with
        | .error e => some (w2, .err e)
        | .ok ins =>
          match env.loadSchemasFromProto protoRoot protoFiles w2 with
          | none => none
          | some (w3, .panic) => some (w3, .panic)
          | some (w3, .exit code) => some (w3, .exit code)
          | some (w3, .err e) =>
            if e = noProtofiles then some (writeTestCase env path ins w3)
            else some (w3, .err e)
          | some (w3, .ok schemas) =>
            some (writeTestCase env path (env.merge schemas ins) (w3.log (.merge schemas ins)))

/-! ## The import graph -/

/-- The file at `p` imports the file at `q`: `p` parses, and one of its imports
that is not a key of `wellKnowns` resolves to `q`. -/
def Imports (env : Env) (protoRoot p q : GoString) : Prop :=
  ∃ pkg imports imp, protoInfo env p = .ok (pkg, imports) ∧ imp ∈ imports ∧
    isWellKnown imp = false ∧ q = resolvePath protoRoot imp

/-- The file at `q` is reached from the file at `p` through imports that are
not well-known. -/
def Reaches (env : Env) (protoRoot : GoString) : GoString → GoString → Prop :=
  Relation.ReflTransGen (Imports env protoRoot)

/-- The import graph is finite and acyclic: every file has a rank that is
larger than the rank of each of its imports. -/
def Acyclic (env : Env) (protoRoot : GoString) : Prop :=
  ∃ rank : GoString → Nat, ∀ p q, Imports env protoRoot p q → rank q < rank p

/-- A cycle of imports that are not well-known is reached from `p`. -/
def ReachesCycle (env : Env) (protoRoot p : GoString) : Prop :=
  ∃ c, Reaches env protoRoot p c ∧ Relation.TransGen (Imports env protoRoot) c c

/-- In the events of a run, every import of a file that is not well-known has
been generated strictly before the schema of the file is extracted. -/
def ImportsFirst (env : Env) (protoRoot : GoString) (evs : List Event) : Prop :=
  ∀ pre post q pkg imports imp, evs = pre ++ Event.protobufExtract q :: post →
    protoInfo env q = .ok (pkg, imports) → imp ∈ imports → isWellKnown imp = false →
    Event.generated (resolvePath protoRoot imp) ∈ pre

/-- What the events of one call of `generateCUEFile` on `protoFile` satisfy. -/
def CallSpec (env : Env) (protoRoot protoFile : GoString) (w w' : World)
    (r : Except Err (Option Instance)) : Prop :=
  ∃ evs, w'.trace = w.trace ++ evs ∧ ImportsFirst env protoRoot evs ∧
    (∀ q, Event.protobufExtract q ∈ evs →
      Reaches env protoRoot (resolvePath protoRoot protoFile) q) ∧
    (∀ x, r = .ok x → Event.generated (resolvePath protoRoot protoFile) ∈ evs)

/-- The events that belong to the generation of a schema. -/
def Event.isGen : Event → Bool
  | .protobufExtract _ => true
  | .generated _ => true
  | _ => false

/-- The number of import paths with fewer than `n` edges that lead from the
file at `p` to the file at `f` through imports that are not well-known. -/
def pathCount (env : Env) (protoRoot : GoString) : Nat → GoString → GoString → Nat
  | 0, _, _ => 0
  | n + 1, p, f =>
    (if p = f then 1 else 0) +
      match protoInfo env p with
      | .error _ => 0
      | .ok (_, imports) =>
        ((imports.filter (fun imp => !isWellKnown imp)).map
          (fun imp => pathCount env protoRoot n (resolvePath protoRoot imp) f)).sum

/-- No event of the list belongs to the generation of a schema. -/
def Quiet (evs : List Event) : Prop :=
  ∀ e ∈ evs, e.isGen = false

/-- The world `w'` comes after `w` by events that do not belong to the
generation of a schema. -/
def QuietStep (w w' : World) : Prop :=
  ∃ evs, w'.trace = w.trace ++ evs ∧ Quiet evs

/-- The files generated in a run, in the order in which they are generated. -/
def generatedFiles (evs : List Event) : List GoString :=
  evs.filterMap (fun e => match e with
    | .generated p => some p
    | _ => none)

/-- Whether a call returned normally. -/
def Res.isOk {α : Type} : Res α → Bool
  | .ok _ => true
  | _ => false

/-- No step fails on a file reached from `p`, in the worlds that satisfy `Inv`,
a property of worlds that the steps keep: the file parses, recording the call
of `extractProto` keeps `Inv`, and in a world that satisfies `Inv` the
generation of the schema of the file succeeds and leaves a world that
satisfies `Inv`. -/
def NoFailure (env : Env) (moduleName protoRoot p : GoString) (Inv : World → Prop) : Prop :=
  ∀ q, Reaches env protoRoot p q →
    ∃ pkg imports, protoInfo env q = .ok (pkg, imports) ∧
      (∀ w, Inv w → Inv (w.log (.extractProto q))) ∧
      ∀ w, Inv w → ∃ w' x, emitSchema env moduleName protoRoot q pkg w = (w', .ok x) ∧ Inv w'

/-! ## The namespace, in the words of the specification -/

/-- The namespace as the specification describes it: the first non-empty
package string, with `;` replaced by `:`, cut down to its first two segments
between `/`, joined by `/`; nothing when there is no such string. -/
def deriveNamespaceSpec (packages : List GoString) : Option GoString :=
  match packages.find? (fun pkg => pkg ≠ []) with
  | none => none
  | some pkg =>
    some (stringsJoin ['/'] ((stringsSplit '/' (stringsReplaceAll pkg [';'] [':'])).take 2))

/-- A path element that `filepath.Clean` keeps as it is: not empty, not `.`
and not `..`. -/
def PlainElement (s : GoString) : Prop :=
  s ≠ [] ∧ s ≠ ['.'] ∧ s ≠ ['.', '.']

/-! ## Example environments -/

/-- An environment in which every call to the outside succeeds; `parse` gives
the proto files and `load` the behaviour of `loadSchemasFromProto`. -/
def exampleEnv (parse : GoString → Except Err (List Element))
    (load : GoString → List GoString → World → Option (World × Res Instance)) : Env where
  glob := fun pattern => .ok [pattern]
  parse := parse
  protobufExtract := fun _ p => .ok ⟨p ++ cueExtension, p⟩
  compileFile := fun f => .ok ⟨f.body⟩
  formatNode := fun f => .ok f.body
  httpGet := fun _ => .ok "syntax = \"proto3\";".toList
  mkdirAllErr := fun _ _ => none
  createErr := fun _ _ => none
  writeErr := fun _ _ _ => none
  toLowerCamel := fun s => s
  compile := fun _ src => .ok ⟨src⟩
  merge := fun a b => ⟨a.text ++ b.text⟩
  validate := fun _ => none
  formatInstance := fun ins => ins.text
  loadSchemasFromProto := load

/-- A helper `loadSchemasFromProto` that finds no proto files. -/
def loadNothing : GoString → List GoString → World → Option (World × Res Instance) :=
  fun _ _ w => some (w, .err noProtofiles)

/-- The world before anything has happened: an empty file system. -/
def emptyWorld : World := ⟨fun _ => none, []⟩

/-- A chain: `a.proto` declares a package and imports `b.proto` and the
well-known timestamp, `b.proto` imports `c.proto`, and `c.proto` declares a
package. -/
def chainParse (p : GoString) : Except Err (List Element) :=
  if p = "a.proto".toList then
    .ok [.option "github.com/foo/a;a".toList, .imp "b.proto".toList,
      .imp "google/protobuf/timestamp.proto".toList]
  else if p = "b.proto".toList then .ok [.imp "c.proto".toList]
  else if p = "c.proto".toList then .ok [.option "github.com/foo/bar;bar".toList]
  else .error "no such file".toList

/-- The environment of the chain. -/
def chainEnv : Env := exampleEnv chainParse loadNothing

/-- The ranks of the files of the diamond. -/
def diamondRank (p : GoString) : Nat :=
  if p = "a.proto".toList then 2
  else if p = "b.proto".toList then 1
  else if p = "c.proto".toList then 1
  else 0

/-- The ranks of the files of the chain. -/
def chainRank (p : GoString) : Nat :=
  if p = "a.proto".toList then 2 else if p = "b.proto".toList then 1 else 0

/-- A diamond: `a.proto` declares a package and imports `b.proto` and
`c.proto`, which both import `d.proto`. -/
def diamondParse (p : GoString) : Except Err (List Element) :=
  if p = "a.proto".toList then
    .ok [.option "github.com/foo/a;a".toList, .imp "b.proto".toList, .imp "c.proto".toList]
  else if p = "b.proto".toList then .ok [.imp "d.proto".toList]
  else if p = "c.proto".toList then .ok [.imp "d.proto".toList]
  else if p = "d.proto".toList then .ok []
  else .error "no such file".toList

/-- The environment of the diamond. -/
def diamondEnv : Env := exampleEnv diamondParse loadNothing

/-- A cycle: `a.proto` imports itself. -/
def cycleParse (p : GoString) : Except Err (List Element) :=
  if p = "a.proto".toList then .ok [.imp "a.proto".toList]
  else .error "no such file".toList

/-- The environment of the cycle. -/
def cycleEnv : Env := exampleEnv cycleParse loadNothing

/-- One proto file, `x.proto`, whose package string has an empty second
segment. -/
def doubleSlashParse (p : GoString) : Except Err (List Element) :=
  if p = "x.proto".toList then .ok [.option "a//b;b".toList]
  else .error "no such file".toList

/-- The environment of the file with the empty segment. -/
def doubleSlashEnv : Env := exampleEnv doubleSlashParse loadNothing

/-- One proto file, `x.proto`, that declares no package. -/
def noPackageParse (p : GoString) : Except Err (List Element) :=
  if p = "x.proto".toList then .ok [.other]
  else .error "no such file".toList

/-- The environment of the file without a package. -/
def noPackageEnv : Env := exampleEnv noPackageParse loadNothing

/-- An environment in which every HTTP request fails. -/
def offlineEnv : Env :=
  { exampleEnv chainParse loadNothing with
    httpGet := fun _ => .error "dial tcp: network is unreachable".toList }

/-- A helper `loadSchemasFromProto` that runs `generateCUEModule` in the
environment `base`, hands its error on, and merges the instances it returns. -/
def loadViaModule (base : Env) : GoString → List GoString → World → Option (World × Res Instance) :=
  fun protoRoot globs w =>
    match generateCUEModule base 8 protoRoot globs w with
    | none => none
    | some (w1, .ok (_, instances)) => some (w1, .ok (instances.foldl base.merge ⟨[]⟩))
    | some (w1, .err e) => some (w1, .err e)
    | some (w1, .panic) => some (w1, .panic)
    | some (w1, .exit code) => some (w1, .exit code)

/-- An environment in which no glob matches a file. -/
def noFilesBase : Env :=
  { exampleEnv chainParse loadNothing with glob := fun _ => .ok [] }

/-- The environment without files, with the helper that runs
`generateCUEModule`. -/
def noFilesEnv : Env :=
  { noFilesBase with loadSchemasFromProto := loadViaModule noFilesBase }

/-- A world in which the test case `myTest` has been written. -/
def testWorld : World :=
  (emptyWorld.put testDir .dir).put "tests/myTest.cue".toList (.file "name: \"myTest\"".toList)

/-- A cycle through files that declare a package: `a.proto` imports `b.proto`
and then itself, and both declare a `go_package`. -/
def packageCycleParse (p : GoString) : Except Err (List Element) :=
  if p = "a.proto".toList then
    .ok [.option "github.com/foo/a;a".toList, .imp "b.proto".toList, .imp "a.proto".toList]
  else if p = "b.proto".toList then .ok [.option "github.com/foo/b;b".toList]
  else .error "no such file".toList

/-- The environment of the cycle through files with a package. -/
def packageCycleEnv : Env := exampleEnv packageCycleParse loadNothing

/-- Neither output directory of the files of `packageCycleEnv` is a regular
file. -/
def OutDirsFree (w : World) : Prop :=
  (∀ c, w.stat "a".toList ≠ some (.file c)) ∧ (∀ c, w.stat "b".toList ≠ some (.file c))

/-! ## Traces of the primitive calls -/

@[simp] theorem World.log_trace (w : World) (e : Event) : (w.log e).trace = w.trace ++ [e] := rfl

@[simp] theorem World.log_fs (w : World) (e : Event) : (w.log e).fs = w.fs := rfl

@[simp] theorem World.put_trace (w : World) (p : GoString) (n : Node) :
    (w.put p n).trace = w.trace := rfl

@[simp] theorem World.stat_log (w : World) (e : Event) (p : GoString) :
    (w.log e).stat p = w.stat p := rfl

@[simp] theorem World.stat_put_same (w : World) (p : GoString) (n : Node) :
    (w.put p n).stat p = some n := by
  simp [World.stat, World.put]

theorem World.mkdirAll_trace (env : Env) (w : World) (p : GoString) :
    (w.mkdirAll env p).1.trace = w.trace ++ [.mkdirAll p] := by
  unfold World.mkdirAll
  cases h : w.stat p with
  | none => cases h2 : env.mkdirAllErr w.fs p <;> simp
  | some n => cases n <;> simp

theorem World.create_trace (env : Env) (w : World) (p : GoString) :
    (w.create env p).1.trace = w.trace ++ [.create p] := by
  unfold World.create
  cases h : env.createErr w.fs p <;> simp

theorem World.write_trace (env : Env) (w : World) (p d : GoString) :
    (w.write env p d).1.trace = w.trace ++ [.write p d] := by
  unfold World.write
  cases h : env.writeErr w.fs p d <;> simp

theorem emitSchema_trace (env : Env) (moduleName protoRoot p pkg : GoString) (w : World) :
    ∃ mid, (emitSchema env moduleName protoRoot p pkg w).1.trace =
        w.trace ++ Event.protobufExtract p :: mid ++
          (match (emitSchema env moduleName protoRoot p pkg w).2 with
            | .ok _ => [Event.generated p]
            | .error _ => []) ∧
      ∀ e ∈ mid, e.isGen = false := by
  unfold emitSchema
  cases h1 : env.protobufExtract protoRoot p with
  | error e => exact ⟨[], by simp⟩
  | ok cueFile =>
    by_cases hp : pkg = []
    · cases h2 : env.compileFile cueFile with
      | error e => exact ⟨[.compileFile cueFile], by simp [hp, h2, Event.isGen]⟩
      | ok r => exact ⟨[.compileFile cueFile], by simp [hp, h2, Event.isGen]⟩
    · simp only [hp, if_false]
      have hm := World.mkdirAll_trace env (w.log (.protobufExtract p)) (outDir moduleName pkg)
      rcases hmk : (w.log (.protobufExtract p)).mkdirAll env (outDir moduleName pkg) with ⟨w2, r2⟩
      rw [hmk] at hm
      cases r2 with
      | some e => exact ⟨[.mkdirAll (outDir moduleName pkg)], by simp_all [Event.isGen]⟩
      | none =>
        have hc := World.create_trace env w2 (outPath moduleName pkg cueFile.Filename)
        rcases hcr : w2.create env (outPath moduleName pkg cueFile.Filename) with ⟨w3, r3⟩
        rw [hcr] at hc
        cases r3 with
        | some e =>
          exact ⟨[.mkdirAll (outDir moduleName pkg),
            .create (outPath moduleName pkg cueFile.Filename)], by simp_all [Event.isGen]⟩
        | none =>
          cases hf : env.formatNode cueFile with
          | error e =>
            exact ⟨[.mkdirAll (outDir moduleName pkg),
              .create (outPath moduleName pkg cueFile.Filename)], by simp_all [Event.isGen]⟩
          | ok b =>
            have hw := World.write_trace env w3 (outPath moduleName pkg cueFile.Filename) b
            rcases hwr : w3.write env (outPath moduleName pkg cueFile.Filename) b with ⟨w4, r4⟩
            rw [hwr] at hw
            cases r4 with
            | some e =>
              exact ⟨[.mkdirAll (outDir moduleName pkg),
                .create (outPath moduleName pkg cueFile.Filename),
                .write (outPath moduleName pkg cueFile.Filename) b], by simp_all [Event.isGen]⟩
            | none =>
              exact ⟨[.mkdirAll (outDir moduleName pkg),
                .create (outPath moduleName pkg cueFile.Filename),
                .write (outPath moduleName pkg cueFile.Filename) b], by simp_all [Event.isGen]⟩

/-! ## Imports are generated first -/

theorem ImportsFirst.append {env : Env} {protoRoot : GoString} {a b : List Event}
    (ha : ImportsFirst env protoRoot a) (hb : ImportsFirst env protoRoot b) :
    ImportsFirst env protoRoot (a ++ b) := by
  intro pre post q pkg imports imp heq hinfo hmem hwk
  rcases List.append_eq_append_iff.mp heq with ⟨a', hpre, hb'⟩ | ⟨c', ha', hc'⟩
  · have := hb a' post q pkg imports imp hb' hinfo hmem hwk
    rw [hpre]
    exact List.mem_append_right _ this
  · cases c' with
    | nil =>
      simp only [List.nil_append] at hc'
      have := hb [] post q pkg imports imp (by simp [hc']) hinfo hmem hwk
      simp at this
    | cons x c'' =>
      simp only [List.cons_append, List.cons.injEq] at hc'
      obtain ⟨hx, -⟩ := hc'
      subst hx
      exact ha pre c'' q pkg imports imp ha' hinfo hmem hwk

theorem ImportsFirst.of_not_mem {env : Env} {protoRoot : GoString} {evs : List Event}
    (h : ∀ q, Event.protobufExtract q ∉ evs) : ImportsFirst env protoRoot evs := by
  intro pre post q pkg imports imp heq _ _ _
  exact absurd (by simp [heq]) (h q)

theorem ImportsFirst.extract {env : Env} {protoRoot : GoString} {a rest : List Event}
    {p : GoString} (ha : ImportsFirst env protoRoot a)
    (hdeps : ∀ pkg imports imp, protoInfo env p = .ok (pkg, imports) → imp ∈ imports →
      isWellKnown imp = false → Event.generated (resolvePath protoRoot imp) ∈ a)
    (hrest : ∀ q, Event.protobufExtract q ∉ rest) :
    ImportsFirst env protoRoot (a ++ Event.protobufExtract p :: rest) := by
  intro pre post q pkg imports imp heq hinfo hmem hwk
  rcases List.append_eq_append_iff.mp heq with ⟨a', hpre, hb'⟩ | ⟨c', ha', hc'⟩
  · cases a' with
    | nil =>
      simp only [List.nil_append, List.cons.injEq, Event.protobufExtract.injEq] at hb'
      obtain ⟨hq, -⟩ := hb'
      subst hq
      simp only [List.append_nil] at hpre
      rw [hpre]
      exact hdeps pkg imports imp hinfo hmem hwk
    | cons x a'' =>
      simp only [List.cons_append, List.cons.injEq] at hb'
      exact absurd (by simp [hb'.2]) (hrest q)
  · cases c' with
    | nil =>
      simp only [List.nil_append, List.cons.injEq, Event.protobufExtract.injEq] at hc'
      obtain ⟨hq, -⟩ := hc'
      subst hq
      simp only [List.append_nil] at ha'
      rw [← ha']
      exact hdeps pkg imports imp hinfo hmem hwk
    | cons x c'' =>
      simp only [List.cons_append, List.cons.injEq] at hc'
      obtain ⟨hx, -⟩ := hc'
      subst hx
      exact ha pre c'' q pkg imports imp ha' hinfo hmem hwk

theorem importLoop_spec (env : Env) (protoRoot : GoString)
    (gen : GoString → World → Option (World × Except Err (Option Instance)))
    (hgen : ∀ imp w w' r, gen imp w = some (w', r) → CallSpec env protoRoot imp w w' r) :
    ∀ imps w w' r, importLoop gen imps w = some (w', r) →
      ∃ evs, w'.trace = w.trace ++ evs ∧ ImportsFirst env protoRoot evs ∧
        (∀ q, Event.protobufExtract q ∈ evs → ∃ imp ∈ imps, isWellKnown imp = false ∧
          Reaches env protoRoot (resolvePath protoRoot imp) q) ∧
        (r = none → ∀ imp ∈ imps, isWellKnown imp = false →
          Event.generated (resolvePath protoRoot imp) ∈ evs) := by
  intro imps
  induction imps with
  | nil =>
    intro w w' r h
    simp only [importLoop, Option.some.injEq, Prod.mk.injEq] at h
    obtain ⟨rfl, rfl⟩ := h
    exact ⟨[], by simp, ImportsFirst.of_not_mem (by simp), by simp, by simp⟩
  | cons imp rest ih =>
    intro w w' r h
    simp only [importLoop] at h
    by_cases hwk : isWellKnown imp = true
    · simp only [hwk, if_true] at h
      obtain ⟨evs, ht, hfirst, hreach, hgenr⟩ := ih w w' r h
      refine ⟨evs, ht, hfirst, ?_, ?_⟩
      · intro q hq
        obtain ⟨i, hi, hiwk, hir⟩ := hreach q hq
        exact ⟨i, List.mem_cons_of_mem _ hi, hiwk, hir⟩
      · intro hr i hi hiwk
        rcases List.mem_cons.mp hi with rfl | hi
        · simp [hwk] at hiwk
        · exact hgenr hr i hi hiwk
    · simp only [hwk] at h
      cases hg : gen imp w with
      | none => simp [hg] at h
      | some res =>
        obtain ⟨w1, r1⟩ := res
        obtain ⟨evs1, ht1, hfirst1, hreach1, hgen1⟩ := hgen imp w w1 r1 hg
        cases r1 with
        | error e =>
          simp only [hg, Option.some.injEq, Prod.mk.injEq, Bool.false_eq_true, if_false] at h
          obtain ⟨rfl, rfl⟩ := h
          refine ⟨evs1, ht1, hfirst1, ?_, by simp⟩
          intro q hq
          exact ⟨imp, List.mem_cons_self _ _, by simpa using hwk, hreach1 q hq⟩
        | ok x =>
          simp only [hg, Bool.false_eq_true, if_false] at h
          obtain ⟨evs2, ht2, hfirst2, hreach2, hgen2⟩ := ih w1 w' r h
          refine ⟨evs1 ++ evs2, by rw [ht2, ht1, List.append_assoc],
            hfirst1.append hfirst2, ?_, ?_⟩
          · intro q hq
            rcases List.mem_append.mp hq with hq | hq
            · exact ⟨imp, List.mem_cons_self _ _, by simpa using hwk, hreach1 q hq⟩
            · obtain ⟨i, hi, hiwk, hir⟩ := hreach2 q hq
              exact ⟨i, List.mem_cons_of_mem _ hi, hiwk, hir⟩
          · intro hr i hi hiwk
            rcases List.mem_cons.mp hi with rfl | hi
            · exact List.mem_append_left _ (hgen1 x rfl)
            · exact List.mem_append_right _ (hgen2 hr i hi hiwk)

theorem generateCUEFile_spec (env : Env) (moduleName protoRoot : GoString) :
    ∀ fuel protoFile w w' r,
      generateCUEFile env fuel moduleName protoRoot protoFile w = some (w', r) →
      CallSpec env protoRoot protoFile w w' r := by
  intro fuel
  induction fuel with
  | zero => intro protoFile w w' r h; simp [generateCUEFile] at h
  | succ n ih =>
    intro protoFile w w' r h
    simp only [generateCUEFile, extractProto] at h
    cases hinfo : protoInfo env (resolvePath protoRoot protoFile) with
    | error e =>
      simp only [hinfo, Option.some.injEq, Prod.mk.injEq] at h
      obtain ⟨rfl, rfl⟩ := h
      exact ⟨[.extractProto (resolvePath protoRoot protoFile)], by simp,
        ImportsFirst.of_not_mem (by simp), by simp, by simp⟩
    | ok info =>
      obtain ⟨pkg, imports⟩ := info
      simp only [hinfo] at h
      cases hl : importLoop (generateCUEFile env n moduleName protoRoot) imports
          (w.log (.extractProto (resolvePath protoRoot protoFile))) with
      | none => simp [hl] at h
      | some res =>
        obtain ⟨w2, r2⟩ := res
        have hloop := importLoop_spec env protoRoot _ (fun imp w w' r => ih imp w w' r)
          imports _ w2 r2 hl
        obtain ⟨evs, ht, hfirst, hreach, hdone⟩ := hloop
        have hstep : ∀ q, (∃ imp ∈ imports, isWellKnown imp = false ∧
            Reaches env protoRoot (resolvePath protoRoot imp) q) →
            Reaches env protoRoot (resolvePath protoRoot protoFile) q := by
          rintro q ⟨imp, himp, hwk, hr⟩
          exact Relation.ReflTransGen.head ⟨pkg, imports, imp, hinfo, himp, hwk, rfl⟩ hr
        cases r2 with
        | some e =>
          simp only [hl, Option.some.injEq, Prod.mk.injEq] at h
          obtain ⟨rfl, rfl⟩ := h
          refine ⟨.extractProto (resolvePath protoRoot protoFile) :: evs, by simp [ht], ?_, ?_,
            by simp⟩
          · exact ImportsFirst.append (a := [_]) (ImportsFirst.of_not_mem (by simp)) hfirst
          · intro q hq
            simp only [List.mem_cons, reduceCtorEq, false_or] at hq
            exact hstep q (hreach q hq)
        | none =>
          simp only [hl, Option.some.injEq] at h
          obtain ⟨mid, hmid, hquiet⟩ :=
            emitSchema_trace env moduleName protoRoot (resolvePath protoRoot protoFile) pkg w2
          rw [h] at hmid
          simp only at hmid
          have hnot : ∀ (l : List Event) q, (∀ e ∈ l, e.isGen = false) →
              Event.protobufExtract q ∉ l := by
            intro l q hl hq
            have := hl _ hq
            simp [Event.isGen] at this
          refine ⟨(.extractProto (resolvePath protoRoot protoFile) :: evs) ++
            .protobufExtract (resolvePath protoRoot protoFile) :: (mid ++
              (match r with
                | .ok _ => [Event.generated (resolvePath protoRoot protoFile)]
                | .error _ => [])), ?_, ?_, ?_, ?_⟩
          · rw [hmid, ht]; simp
          · apply ImportsFirst.extract
            · exact ImportsFirst.append (a := [_]) (ImportsFirst.of_not_mem (by simp)) hfirst
            · intro pkg' imports' imp hinfo' himp hwk
              rw [hinfo] at hinfo'
              simp only [Except.ok.injEq, Prod.mk.injEq] at hinfo'
              obtain ⟨-, rfl⟩ := hinfo'
              exact List.mem_cons_of_mem _ (hdone rfl imp himp hwk)
            · intro q hq
              rcases List.mem_append.mp hq with hq | hq
              · exact hnot mid q hquiet hq
              · cases r <;> simp at hq
          · intro q hq
            rcases List.mem_append.mp hq with hq | hq
            · simp only [List.mem_cons, reduceCtorEq, false_or] at hq
              exact hstep q (hreach q hq)
            · rcases List.mem_cons.mp hq with hq | hq
              · simp only [Event.protobufExtract.injEq] at hq
                subst hq
                exact Relation.ReflTransGen.refl
              · rcases List.mem_append.mp hq with hq | hq
                · exact absurd hq (hnot mid q hquiet)
                · cases r <;> simp at hq
          · intro x hx
            subst hx
            simp

theorem importLoop_mono
    (gen gen' : GoString → World → Option (World × Except Err (Option Instance)))
    (h : ∀ imp w x, gen imp w = some x → gen' imp w = some x) :
    ∀ imps w y, importLoop gen imps w = some y → importLoop gen' imps w = some y := by
  intro imps
  induction imps with
  | nil => intro w y hy; simpa [importLoop] using hy
  | cons imp rest ih =>
    intro w y hy
    simp only [importLoop] at hy ⊢
    by_cases hwk : isWellKnown imp = true
    · simp only [hwk, if_true] at hy ⊢
      exact ih w y hy
    · simp only [hwk, Bool.false_eq_true, if_false] at hy ⊢
      cases hg : gen imp w with
      | none => simp [hg] at hy
      | some res =>
        rw [h imp w res hg]
        rw [hg] at hy
        obtain ⟨w1, r1⟩ := res
        cases r1 with
        | error e => simpa using hy
        | ok x => exact ih w1 y hy

theorem generateCUEFile_mono (env : Env) (moduleName protoRoot : GoString) :
    ∀ fuel protoFile w x, generateCUEFile env fuel moduleName protoRoot protoFile w = some x →
      generateCUEFile env (fuel + 1) moduleName protoRoot protoFile w = some x := by
  intro fuel
  induction fuel with
  | zero => intro protoFile w x h; simp [generateCUEFile] at h
  | succ n ih =>
    intro protoFile w x h
    rw [generateCUEFile] at h ⊢
    simp only [extractProto] at h ⊢
    cases hinfo : protoInfo env (resolvePath protoRoot protoFile) with
    | error e => simpa [hinfo] using h
    | ok info =>
      obtain ⟨pkg, imports⟩ := info
      simp only [hinfo] at h ⊢
      cases hl : importLoop (generateCUEFile env n moduleName protoRoot) imports
          (w.log (.extractProto (resolvePath protoRoot protoFile))) with
      | none => simp [hl] at h
      | some res =>
        rw [importLoop_mono _ _ (fun imp w x => ih imp w x) imports _ res hl]
        rw [hl] at h
        exact h

theorem generateCUEFile_mono_le (env : Env) (moduleName protoRoot : GoString)
    (fuel fuel' : Nat) (hle : fuel ≤ fuel') (protoFile : GoString) (w : World)
    (x : World × Except Err (Option Instance))
    (h : generateCUEFile env fuel moduleName protoRoot protoFile w = some x) :
    generateCUEFile env fuel' moduleName protoRoot protoFile w = some x := by
  induction hle with
  | refl => exact h
  | step _ ih => exact generateCUEFile_mono env moduleName protoRoot _ protoFile w x ih

theorem importLoop_isSome
    (gen : GoString → World → Option (World × Except Err (Option Instance))) :
    ∀ imps, (∀ imp ∈ imps, isWellKnown imp = false → ∀ w, (gen imp w).isSome) →
      ∀ w, (importLoop gen imps w).isSome := by
  intro imps
  induction imps with
  | nil => intro _ w; simp [importLoop]
  | cons imp rest ih =>
    intro h w
    simp only [importLoop]
    have hrest := ih (fun i hi => h i (List.mem_cons_of_mem _ hi))
    by_cases hwk : isWellKnown imp = true
    · simp only [hwk, if_true]
      exact hrest w
    · simp only [hwk, Bool.false_eq_true, if_false]
      have hi := h imp (List.mem_cons_self _ _) (by simpa using hwk) w
      cases hg : gen imp w with
      | none => simp [hg] at hi
      | some res =>
        obtain ⟨w1, r1⟩ := res
        cases r1 with
        | error e => simp
        | ok x => exact hrest w1

theorem generateCUEFile_isSome (env : Env) (moduleName protoRoot : GoString)
    (rank : GoString → Nat) (hrank : ∀ p q, Imports env protoRoot p q → rank q < rank p) :
    ∀ fuel protoFile w, rank (resolvePath protoRoot protoFile) < fuel →
      (generateCUEFile env fuel moduleName protoRoot protoFile w).isSome := by
  intro fuel
  induction fuel with
  | zero => intro protoFile w h; omega
  | succ n ih =>
    intro protoFile w h
    simp only [generateCUEFile, extractProto]
    cases hinfo : protoInfo env (resolvePath protoRoot protoFile) with
    | error e => simp
    | ok info =>
      obtain ⟨pkg, imports⟩ := info
      simp only
      have hloop := importLoop_isSome (generateCUEFile env n moduleName protoRoot) imports
        (fun imp himp hwk w => ih imp w (by
          have := hrank _ _ ⟨pkg, imports, imp, hinfo, himp, hwk, rfl⟩
          omega))
        (w.log (.extractProto (resolvePath protoRoot protoFile)))
      cases hl : importLoop (generateCUEFile env n moduleName protoRoot) imports
          (w.log (.extractProto (resolvePath protoRoot protoFile))) with
      | none => simp [hl] at hloop
      | some res =>
        obtain ⟨w2, r2⟩ := res
        cases r2 <;> simp

theorem chainEnv_acyclic : Acyclic chainEnv "./".toList := by
  refine ⟨chainRank, ?_⟩
  rintro p q ⟨pkg, imports, imp, hinfo, hmem, hwk, rfl⟩
  simp only [protoInfo, chainEnv, exampleEnv, chainParse] at hinfo
  split_ifs at hinfo with h1 h2 h3
  · simp only [scanElements, List.nil_append, List.cons_append, Except.ok.injEq,
      Prod.mk.injEq] at hinfo
    obtain ⟨-, rfl⟩ := hinfo
    simp only [List.mem_cons, List.mem_singleton, List.not_mem_nil, or_false] at hmem
    rcases hmem with rfl | rfl
    · subst h1; decide
    · exact absurd hwk (by decide)
  · simp only [scanElements, List.nil_append, Except.ok.injEq, Prod.mk.injEq] at hinfo
    obtain ⟨-, rfl⟩ := hinfo
    simp only [List.mem_singleton] at hmem
    subst hmem
    subst h2; decide
  · simp only [scanElements, Except.ok.injEq, Prod.mk.injEq] at hinfo
    obtain ⟨-, rfl⟩ := hinfo
    simp at hmem

/-- C1: in a finite acyclic import graph, `generateCUEFile` returns from every
root file, and among the events it produces every import of a file that is not
a key of `wellKnowns` has been generated strictly before the schema of that
file is extracted, and every file whose schema is extracted is reached from
the root through imports that are not well-known. -/
theorem generateCUEFile_imports_before_file (env : Env)
    (moduleName protoRoot protoFile : GoString) (hacyclic : Acyclic env protoRoot) :
    ∃ depth, ∀ w, ∃ w' r evs,
      (∀ fuel, depth ≤ fuel →
        generateCUEFile env fuel moduleName protoRoot protoFile w = some (w', r)) ∧
      w'.trace = w.trace ++ evs ∧
      (∀ pre post q pkg imports imp, evs = pre ++ Event.protobufExtract q :: post →
        protoInfo env q = .ok (pkg, imports) → imp ∈ imports → isWellKnown imp = false →
        Event.generated (resolvePath protoRoot imp) ∈ pre) ∧
      (∀ q, Event.protobufExtract q ∈ evs →
        Reaches env protoRoot (resolvePath protoRoot protoFile) q) := by
  obtain ⟨rank, hrank⟩ := hacyclic
  refine ⟨rank (resolvePath protoRoot protoFile) + 1, fun w => ?_⟩
  have hsome := generateCUEFile_isSome env moduleName protoRoot rank hrank
    (rank (resolvePath protoRoot protoFile) + 1) protoFile w (Nat.lt_succ_self _)
  cases hrun : generateCUEFile env (rank (resolvePath protoRoot protoFile) + 1) moduleName
      protoRoot protoFile w with
  | none => simp [hrun] at hsome
  | some res =>
    obtain ⟨w', r⟩ := res
    obtain ⟨evs, ht, hfirst, hreach, -⟩ :=
      generateCUEFile_spec env moduleName protoRoot _ protoFile w w' r hrun
    exact ⟨w', r, evs,
      fun fuel hle => generateCUEFile_mono_le env moduleName protoRoot _ fuel hle _ _ _ hrun,
      ht, hfirst, hreach⟩

theorem generateCUEFile_imports_before_file_witness :
    Acyclic chainEnv "./".toList ∧
    ∃ depth, ∀ w, ∃ w' r evs,
      (∀ fuel, depth ≤ fuel →
        generateCUEFile chainEnv fuel "github.com/foo".toList "./".toList "a.proto".toList w =
          some (w', r)) ∧
      w'.trace = w.trace ++ evs ∧
      (∀ pre post q pkg imports imp, evs = pre ++ Event.protobufExtract q :: post →
        protoInfo chainEnv q = .ok (pkg, imports) → imp ∈ imports → isWellKnown imp = false →
        Event.generated (resolvePath "./".toList imp) ∈ pre) ∧
      (∀ q, Event.protobufExtract q ∈ evs →
        Reaches chainEnv "./".toList (resolvePath "./".toList "a.proto".toList) q) :=
  ⟨chainEnv_acyclic,
    generateCUEFile_imports_before_file chainEnv "github.com/foo".toList "./".toList
      "a.proto".toList chainEnv_acyclic⟩

/-! ## How often a file is generated -/

theorem QuietStep.refl (w : World) : QuietStep w w :=
  ⟨[], by simp, by simp [Quiet]⟩

theorem QuietStep.trans {w1 w2 w3 : World} (h1 : QuietStep w1 w2) (h2 : QuietStep w2 w3) :
    QuietStep w1 w3 := by
  obtain ⟨a, ha, hqa⟩ := h1
  obtain ⟨b, hb, hqb⟩ := h2
  refine ⟨a ++ b, by rw [hb, ha, List.append_assoc], ?_⟩
  intro e he
  rcases List.mem_append.mp he with he | he
  · exact hqa e he
  · exact hqb e he

theorem QuietStep.log (w : World) (e : Event) (he : e.isGen = false) : QuietStep w (w.log e) :=
  ⟨[e], rfl, by simpa [Quiet] using he⟩

theorem QuietStep.mkdirAll (env : Env) (w : World) (p : GoString) :
    QuietStep w (w.mkdirAll env p).1 :=
  ⟨[.mkdirAll p], World.mkdirAll_trace env w p, by simp [Quiet, Event.isGen]⟩

theorem QuietStep.create (env : Env) (w : World) (p : GoString) :
    QuietStep w (w.create env p).1 :=
  ⟨[.create p], World.create_trace env w p, by simp [Quiet, Event.isGen]⟩

theorem QuietStep.write (env : Env) (w : World) (p d : GoString) :
    QuietStep w (w.write env p d).1 :=
  ⟨[.write p d], World.write_trace env w p d, by simp [Quiet, Event.isGen]⟩

theorem Quiet.count_generated {evs : List Event} (h : Quiet evs) (f : GoString) :
    evs.count (Event.generated f) = 0 := by
  rw [List.count_eq_zero]
  intro hmem
  have := h _ hmem
  simp [Event.isGen] at this

theorem Quiet.not_extract {evs : List Event} (h : Quiet evs) (q : GoString) :
    Event.protobufExtract q ∉ evs := by
  intro hmem
  have := h _ hmem
  simp [Event.isGen] at this

theorem downloadFile_quiet (env : Env) (url path : GoString) (w : World) :
    QuietStep w (downloadFile env url path w).1 := by
  unfold downloadFile
  have hc := QuietStep.create env w path
  rcases hcr : w.create env path with ⟨w1, r1⟩
  rw [hcr] at hc
  cases r1 with
  | some e => exact hc
  | none =>
    simp only
    have hl := hc.trans (QuietStep.log w1 (.httpGet url) rfl)
    cases hg : env.httpGet url with
    | error e => exact hl
    | ok body => exact hl.trans (QuietStep.write env _ path body)

theorem downloadLoop_quiet (env : Env) :
    ∀ targets w, QuietStep w (downloadLoop env targets w).1 := by
  intro targets
  induction targets with
  | nil => intro w; exact QuietStep.refl w
  | cons kv rest ih =>
    intro w
    obtain ⟨key, url⟩ := kv
    simp only [downloadLoop]
    have hm := QuietStep.mkdirAll env w (filepathDir (cachePath key))
    rcases hmr : w.mkdirAll env (filepathDir (cachePath key)) with ⟨w1, r1⟩
    rw [hmr] at hm
    cases r1 with
    | some e => exact hm
    | none =>
      simp only
      have hd := downloadFile_quiet env url (cachePath key) w1
      rcases hdr : downloadFile env url (cachePath key) w1 with ⟨w2, r2⟩
      rw [hdr] at hd
      cases r2 with
      | some e => exact hm.trans hd
      | none => exact (hm.trans hd).trans (ih w2)

theorem downloadWellKnowns_quiet (env : Env) (w : World) :
    QuietStep w (downloadWellKnowns env w).1 := by
  unfold downloadWellKnowns
  simp only
  split
  · exact QuietStep.refl w
  · exact downloadLoop_quiet env _ w

theorem generateModuleFiles_quiet (env : Env) (moduleName : GoString) (w : World) :
    QuietStep w (generateModuleFiles env moduleName w).1 := by
  unfold generateModuleFiles
  have h1 := QuietStep.mkdirAll env w "./cue.mod/pkg".toList
  rcases hr1 : w.mkdirAll env "./cue.mod/pkg".toList with ⟨w1, r1⟩
  rw [hr1] at h1
  cases r1 with
  | some e => exact h1
  | none =>
    simp only
    have h2 := QuietStep.mkdirAll env w1 "./cue.mod/usr".toList
    rcases hr2 : w1.mkdirAll env "./cue.mod/usr".toList with ⟨w2, r2⟩
    rw [hr2] at h2
    cases r2 with
    | some e => exact h1.trans h2
    | none =>
      simp only
      have h3 := QuietStep.create env w2 "./cue.mod/module.cue".toList
      rcases hr3 : w2.create env "./cue.mod/module.cue".toList with ⟨w3, r3⟩
      rw [hr3] at h3
      cases r3 with
      | some e => exact (h1.trans h2).trans h3
      | none => exact ((h1.trans h2).trans h3).trans (QuietStep.write env w3 _ _)

theorem globLoop_quiet (env : Env) :
    ∀ globs acc w, QuietStep w (globLoop env globs acc w).1 := by
  intro globs
  induction globs with
  | nil => intro acc w; exact QuietStep.refl w
  | cons g rest ih =>
    intro acc w
    simp only [globLoop]
    have hl := QuietStep.log w (.glob g) rfl
    cases hg : env.glob g with
    | error e => exact hl
    | ok pFiles => exact hl.trans (ih _ _)

theorem cueImportsLoop_quiet (env : Env) :
    ∀ files acc w, QuietStep w (cueImportsLoop env files acc w).1 := by
  intro files
  induction files with
  | nil => intro acc w; exact QuietStep.refl w
  | cons file rest ih =>
    intro acc w
    simp only [cueImportsLoop, extractProto]
    have hl := QuietStep.log w (.extractProto file) rfl
    cases hg : protoInfo env file with
    | error e => exact hl
    | ok info => exact hl.trans (ih _ _)

theorem emitSchema_count (env : Env) (moduleName protoRoot p pkg : GoString) (w w' : World)
    (x : Option Instance) (h : emitSchema env moduleName protoRoot p pkg w = (w', .ok x)) :
    ∃ evs, w'.trace = w.trace ++ evs ∧
      ∀ f, evs.count (Event.generated f) = if p = f then 1 else 0 := by
  obtain ⟨mid, hmid, hquiet⟩ := emitSchema_trace env moduleName protoRoot p pkg w
  rw [h] at hmid
  simp only at hmid
  refine ⟨Event.protobufExtract p :: mid ++ [Event.generated p], by rw [hmid]; simp, ?_⟩
  intro f
  have hq : mid.count (Event.generated f) = 0 := Quiet.count_generated hquiet f
  simp only [List.cons_append, List.count_cons, List.count_append, hq, List.count_nil,
    beq_iff_eq, reduceCtorEq, if_false, Event.generated.injEq]
  simp

theorem importLoop_count (env : Env) (protoRoot : GoString) (n : Nat)
    (gen : GoString → World → Option (World × Except Err (Option Instance)))
    (hgen : ∀ imp w w' x, gen imp w = some (w', .ok x) →
      ∃ evs, w'.trace = w.trace ++ evs ∧
        ∀ f, evs.count (Event.generated f) =
          pathCount env protoRoot n (resolvePath protoRoot imp) f) :
    ∀ imps w w', importLoop gen imps w = some (w', none) →
      ∃ evs, w'.trace = w.trace ++ evs ∧
        ∀ f, evs.count (Event.generated f) =
          ((imps.filter (fun imp => !isWellKnown imp)).map
            (fun imp => pathCount env protoRoot n (resolvePath protoRoot imp) f)).sum := by
  intro imps
  induction imps with
  | nil =>
    intro w w' h
    simp only [importLoop, Option.some.injEq, Prod.mk.injEq, and_true] at h
    subst h
    exact ⟨[], by simp, by simp⟩
  | cons imp rest ih =>
    intro w w' h
    simp only [importLoop] at h
    by_cases hwk : isWellKnown imp = true
    · simp only [hwk, if_true] at h
      obtain ⟨evs, ht, hc⟩ := ih w w' h
      exact ⟨evs, ht, fun f => by simp [List.filter_cons, hwk, hc f]⟩
    · simp only [hwk, Bool.false_eq_true, if_false] at h
      cases hg : gen imp w with
      | none => simp [hg] at h
      | some res =>
        obtain ⟨w1, r1⟩ := res
        cases r1 with
        | error e => simp [hg] at h
        | ok x =>
          simp only [hg] at h
          obtain ⟨evs1, ht1, hc1⟩ := hgen imp w w1 x hg
          obtain ⟨evs2, ht2, hc2⟩ := ih w1 w' h
          refine ⟨evs1 ++ evs2, by rw [ht2, ht1, List.append_assoc], fun f => ?_⟩
          simp [List.filter_cons, hwk, hc1 f, hc2 f]

theorem generateCUEFile_count (env : Env) (moduleName protoRoot : GoString) :
    ∀ fuel protoFile w w' x,
      generateCUEFile env fuel moduleName protoRoot protoFile w = some (w', .ok x) →
      ∃ evs, w'.trace = w.trace ++ evs ∧
        ∀ f, evs.count (Event.generated f) =
          pathCount env protoRoot fuel (resolvePath protoRoot protoFile) f := by
  intro fuel
  induction fuel with
  | zero => intro protoFile w w' x h; simp [generateCUEFile] at h
  | succ n ih =>
    intro protoFile w w' x h
    simp only [generateCUEFile, extractProto] at h
    cases hinfo : protoInfo env (resolvePath protoRoot protoFile) with
    | error e => simp [hinfo] at h
    | ok info =>
      obtain ⟨pkg, imports⟩ := info
      simp only [hinfo] at h
      cases hl : importLoop (generateCUEFile env n moduleName protoRoot) imports
          (w.log (.extractProto (resolvePath protoRoot protoFile))) with
      | none => simp [hl] at h
      | some res =>
        obtain ⟨w2, r2⟩ := res
        cases r2 with
        | some e => simp [hl] at h
        | none =>
          simp only [hl, Option.some.injEq] at h
          obtain ⟨evs1, ht1, hc1⟩ := importLoop_count env protoRoot n _
            (fun imp w w' x => ih imp w w' x) imports _ w2 hl
          obtain ⟨evs2, ht2, hc2⟩ := emitSchema_count env moduleName protoRoot _ pkg w2 w' x h
          refine ⟨Event.extractProto (resolvePath protoRoot protoFile) :: evs1 ++ evs2,
            by rw [ht2, ht1]; simp, fun f => ?_⟩
          simp only [pathCount, hinfo, List.cons_append, List.count_cons, List.count_append,
            hc1 f, hc2 f, beq_iff_eq, reduceCtorEq, if_false]
          omega

theorem instancesLoop_count (env : Env) (fuel : Nat) (moduleName protoRoot : GoString) :
    ∀ files acc w w' instances,
      instancesLoop env fuel moduleName protoRoot files acc w = some (w', .ok instances) →
      ∃ evs, w'.trace = w.trace ++ evs ∧ ImportsFirst env protoRoot evs ∧
        ∀ f, evs.count (Event.generated f) =
          (files.map (fun file =>
            pathCount env protoRoot fuel (resolvePath protoRoot file) f)).sum := by
  intro files
  induction files with
  | nil =>
    intro acc w w' instances h
    simp only [instancesLoop, Option.some.injEq, Prod.mk.injEq] at h
    obtain ⟨rfl, -⟩ := h
    exact ⟨[], by simp, ImportsFirst.of_not_mem (by simp), by simp⟩
  | cons file rest ih =>
    intro acc w w' instances h
    simp only [instancesLoop] at h
    cases hg : generateCUEFile env fuel moduleName protoRoot file w with
    | none => simp [hg] at h
    | some res =>
      obtain ⟨w1, r1⟩ := res
      cases r1 with
      | error e => simp [hg] at h
      | ok x =>
        obtain ⟨evs1, ht1, hc1⟩ := generateCUEFile_count env moduleName protoRoot fuel file w w1 x hg
        obtain ⟨evs1', ht1', hfirst1, -, -⟩ :=
          generateCUEFile_spec env moduleName protoRoot fuel file w w1 (.ok x) hg
        have heq : evs1' = evs1 := List.append_cancel_left (ht1'.symm.trans ht1)
        subst heq
        have hrest : ∃ acc', instancesLoop env fuel moduleName protoRoot rest acc' w1 =
            some (w', .ok instances) := by
          cases x with
          | none => exact ⟨acc, by simpa [hg] using h⟩
          | some ins => exact ⟨acc ++ [ins], by simpa [hg] using h⟩
        obtain ⟨acc', hacc'⟩ := hrest
        obtain ⟨evs2, ht2, hfirst2, hc2⟩ := ih acc' w1 w' instances hacc'
        exact ⟨evs1' ++ evs2, by rw [ht2, ht1, List.append_assoc], hfirst1.append hfirst2,
          fun f => by simp [hc1 f, hc2 f]⟩

theorem ImportsFirst.of_quiet {env : Env} {protoRoot : GoString} {evs : List Event}
    (h : Quiet evs) : ImportsFirst env protoRoot evs :=
  ImportsFirst.of_not_mem (fun q => h.not_extract q)

theorem generateFrom_count (env : Env) (fuel : Nat) (protoRoot : GoString)
    (protoFiles cueImports : List GoString) (w w' : World)
    (res : List GoString × List Instance)
    (h : generateFrom env fuel protoRoot protoFiles cueImports w = some (w', .ok res)) :
    ∃ evs, w'.trace = w.trace ++ evs ∧ ImportsFirst env protoRoot evs ∧
      ∀ f, evs.count (Event.generated f) =
        (protoFiles.map (fun file =>
          pathCount env protoRoot fuel (resolvePath protoRoot file) f)).sum := by
  have hfinish : ∀ moduleName w1, QuietStep w w1 →
      (match instancesLoop env fuel moduleName protoRoot protoFiles [] w1 with
        | none => none
        | some (w2, .error e) => some (w2, Res.err e)
        | some (w2, .ok instances) => some (w2, Res.ok (cueImports, instances))) =
        some (w', .ok res) →
      ∃ evs, w'.trace = w.trace ++ evs ∧ ImportsFirst env protoRoot evs ∧
        ∀ f, evs.count (Event.generated f) =
          (protoFiles.map (fun file =>
            pathCount env protoRoot fuel (resolvePath protoRoot file) f)).sum := by
    intro moduleName w1 hq hm
    obtain ⟨evs0, ht0, hq0⟩ := hq
    cases hl : instancesLoop env fuel moduleName protoRoot protoFiles [] w1 with
    | none => simp [hl] at hm
    | some r =>
      obtain ⟨w2, r2⟩ := r
      cases r2 with
      | error e => simp [hl] at hm
      | ok instances =>
        simp only [hl, Option.some.injEq, Prod.mk.injEq] at hm
        obtain ⟨rfl, -⟩ := hm
        obtain ⟨evs, ht, hfirst, hc⟩ :=
          instancesLoop_count env fuel moduleName protoRoot protoFiles [] w1 w2 instances hl
        exact ⟨evs0 ++ evs, by rw [ht, ht0, List.append_assoc],
          (ImportsFirst.of_quiet hq0).append hfirst,
          fun f => by simp [hc f, hq0.count_generated f]⟩
  unfold generateFrom at h
  cases cueImports with
  | nil => exact hfinish [] w (QuietStep.refl w) h
  | cons first rest =>
    simp only at h
    cases hm : moduleNameOf first with
    | none => simp [hm] at h
    | some moduleName =>
      simp only [hm] at h
      have hq := generateModuleFiles_quiet env moduleName w
      rcases hr : generateModuleFiles env moduleName w with ⟨w1, r1⟩
      rw [hr] at hq h
      cases r1 with
      | some e => simp at h
      | none => exact hfinish moduleName w1 hq h

theorem diamondEnv_acyclic : Acyclic diamondEnv "./".toList := by
  refine ⟨diamondRank, ?_⟩
  rintro p q ⟨pkg, imports, imp, hinfo, hmem, hwk, rfl⟩
  simp only [protoInfo, diamondEnv, exampleEnv, diamondParse] at hinfo
  split_ifs at hinfo with h1 h2 h3 h4
  · simp only [scanElements, List.nil_append, List.cons_append, Except.ok.injEq,
      Prod.mk.injEq] at hinfo
    obtain ⟨-, rfl⟩ := hinfo
    simp only [List.mem_cons, List.mem_singleton, List.not_mem_nil, or_false] at hmem
    rcases hmem with rfl | rfl
    · subst h1; decide
    · subst h1; decide
  · simp only [scanElements, List.nil_append, Except.ok.injEq, Prod.mk.injEq] at hinfo
    obtain ⟨-, rfl⟩ := hinfo
    simp only [List.mem_singleton] at hmem
    subst hmem
    subst h2; decide
  · simp only [scanElements, List.nil_append, Except.ok.injEq, Prod.mk.injEq] at hinfo
    obtain ⟨-, rfl⟩ := hinfo
    simp only [List.mem_singleton] at hmem
    subst hmem
    subst h3; decide
  · simp only [scanElements, Except.ok.injEq, Prod.mk.injEq] at hinfo
    obtain ⟨-, rfl⟩ := hinfo
    simp at hmem

/-- C2, as stated, fails on a diamond: the import graph of `a.proto` is
acyclic, the run of `generateCUEModule` on it succeeds, and `d.proto`, which
both `b.proto` and `c.proto` have among their imports, is generated twice. -/
theorem generateCUEModule_diamond_generates_twice :
    Acyclic diamondEnv "./".toList ∧
    (generateCUEModule diamondEnv 3 "./".toList ["a.proto".toList] emptyWorld).map
        (fun x => (generatedFiles x.1.trace, x.2.isOk)) =
      some (["d.proto".toList, "b.proto".toList, "d.proto".toList, "c.proto".toList,
        "a.proto".toList], true) :=
  ⟨diamondEnv_acyclic, by decide⟩

theorem instancesLoop_mono (env : Env) (fuel fuel' : Nat) (hle : fuel ≤ fuel')
    (moduleName protoRoot : GoString) :
    ∀ files acc w x, instancesLoop env fuel moduleName protoRoot files acc w = some x →
      instancesLoop env fuel' moduleName protoRoot files acc w = some x := by
  intro files
  induction files with
  | nil => intro acc w x h; simpa [instancesLoop] using h
  | cons file rest ih =>
    intro acc w x h
    simp only [instancesLoop] at h ⊢
    cases hg : generateCUEFile env fuel moduleName protoRoot file w with
    | none => simp [hg] at h
    | some res =>
      rw [generateCUEFile_mono_le env moduleName protoRoot fuel fuel' hle file w res hg]
      rw [hg] at h
      obtain ⟨w1, r1⟩ := res
      cases r1 with
      | error e => exact h
      | ok o =>
        cases o with
        | none => exact ih _ _ _ h
        | some ins => exact ih _ _ _ h

theorem generateFrom_mono (env : Env) (fuel fuel' : Nat) (hle : fuel ≤ fuel')
    (protoRoot : GoString) (protoFiles cueImports : List GoString) (w : World)
    (x : World × Res (List GoString × List Instance))
    (h : generateFrom env fuel protoRoot protoFiles cueImports w = some x) :
    generateFrom env fuel' protoRoot protoFiles cueImports w = some x := by
  have hfinish : ∀ moduleName w1,
      (match instancesLoop env fuel moduleName protoRoot protoFiles [] w1 with
        | none => none
        | some (w2, .error e) => some (w2, Res.err e)
        | some (w2, .ok instances) => some (w2, Res.ok (cueImports, instances))) = some x →
      (match instancesLoop env fuel' moduleName protoRoot protoFiles [] w1 with
        | none => none
        | some (w2, .error e) => some (w2, Res.err e)
        | some (w2, .ok instances) => some (w2, Res.ok (cueImports, instances))) = some x := by
    intro moduleName w1 hm
    cases hl : instancesLoop env fuel moduleName protoRoot protoFiles [] w1 with
    | none => simp [hl] at hm
    | some r =>
      rw [instancesLoop_mono env fuel fuel' hle moduleName protoRoot protoFiles [] w1 r hl]
      rw [hl] at hm
      exact hm
  unfold generateFrom at h ⊢
  cases cueImports with
  | nil => exact hfinish [] w h
  | cons first rest =>
    simp only at h ⊢
    cases hm : moduleNameOf first with
    | none => simpa [hm] using h
    | some moduleName =>
      simp only [hm] at h ⊢
      rcases hr : generateModuleFiles env moduleName w with ⟨w1, r1⟩
      rw [hr] at h
      cases r1 with
      | some e => exact h
      | none => exact hfinish moduleName w1 h

theorem generateCUEModule_mono (env : Env) (fuel fuel' : Nat) (hle : fuel ≤ fuel')
    (protoRoot : GoString) (globs : List GoString) (w : World)
    (x : World × Res (List GoString × List Instance))
    (h : generateCUEModule env fuel protoRoot globs w = some x) :
    generateCUEModule env fuel' protoRoot globs w = some x := by
  unfold generateCUEModule at h ⊢
  rcases hgr : globLoop env globs [] w with ⟨w1, r1⟩
  rw [hgr] at h
  cases r1 with
  | error e => exact h
  | ok protoFiles =>
    simp only at h ⊢
    split
    · rename_i hlen
      simpa [hlen] using h
    · rename_i hlen
      simp only [hlen, if_false] at h
      rcases hdr : downloadWellKnowns env w1 with ⟨w2, r2⟩
      rw [hdr] at h
      cases r2 with
      | some e => exact h
      | none =>
        simp only at h ⊢
        rcases hcr : cueImportsLoop env protoFiles [] w2 with ⟨w3, r3⟩
        rw [hcr] at h
        cases r3 with
        | error e => exact h
        | ok cueImports =>
          exact generateFrom_mono env fuel fuel' hle protoRoot protoFiles cueImports w3 x h

theorem generateCUEModule_count (env : Env) (fuel : Nat)
    (protoRoot : GoString) (globs : List GoString) (w w' : World)
    (res : List GoString × List Instance)
    (h : generateCUEModule env fuel protoRoot globs w = some (w', .ok res)) :
    ∃ protoFiles evs, (globLoop env globs [] w).2 = .ok protoFiles ∧
      w'.trace = w.trace ++ evs ∧
      (∀ f, evs.count (Event.generated f) =
        (protoFiles.map (fun file =>
          pathCount env protoRoot fuel (resolvePath protoRoot file) f)).sum) ∧
      ImportsFirst env protoRoot evs := by
  unfold generateCUEModule at h
  have hg := globLoop_quiet env globs [] w
  rcases hgr : globLoop env globs [] w with ⟨w1, r1⟩
  rw [hgr] at hg h
  cases r1 with
  | error e => simp at h
  | ok protoFiles =>
    simp only at h
    split at h
    · simp at h
    · have hd := downloadWellKnowns_quiet env w1
      rcases hdr : downloadWellKnowns env w1 with ⟨w2, r2⟩
      rw [hdr] at hd h
      cases r2 with
      | some e => simp at h
      | none =>
        simp only at h
        have hc := cueImportsLoop_quiet env protoFiles [] w2
        rcases hcr : cueImportsLoop env protoFiles [] w2 with ⟨w3, r3⟩
        rw [hcr] at hc h
        cases r3 with
        | error e => simp at h
        | ok cueImports =>
          simp only at h
          obtain ⟨evs0, ht0, hq0⟩ := (hg.trans hd).trans hc
          obtain ⟨evs, ht, hfirst, hcount⟩ :=
            generateFrom_count env fuel protoRoot protoFiles cueImports w3 w' res h
          exact ⟨protoFiles, evs0 ++ evs, rfl, by rw [ht, ht0, List.append_assoc],
            fun f => by simp [hcount f, hq0.count_generated f],
            (ImportsFirst.of_quiet hq0).append hfirst⟩


/-- C2, amended: when a run of `generateCUEModule` succeeds, every file is
generated once for each path of imports that leads to it from a top-level file
(so exactly once when a single path reaches it, as in a chain), no path of
imports is longer than the recursion depth used, and every file that is not
well-known is generated before the schema of a file that has it among its
imports is extracted. -/
theorem generateCUEModule_generates_once_per_path (env : Env) (fuel : Nat)
    (protoRoot : GoString) (globs : List GoString) (w w' : World)
    (res : List GoString × List Instance)
    (h : generateCUEModule env fuel protoRoot globs w = some (w', .ok res)) :
    ∃ protoFiles evs, (globLoop env globs [] w).2 = .ok protoFiles ∧
      w'.trace = w.trace ++ evs ∧
      (∀ f, evs.count (Event.generated f) =
        (protoFiles.map (fun file =>
          pathCount env protoRoot fuel (resolvePath protoRoot file) f)).sum) ∧
      (∀ fuel', fuel ≤ fuel' → ∀ f,
        (protoFiles.map (fun file =>
          pathCount env protoRoot fuel' (resolvePath protoRoot file) f)).sum =
        (protoFiles.map (fun file =>
          pathCount env protoRoot fuel (resolvePath protoRoot file) f)).sum) ∧
      ImportsFirst env protoRoot evs := by
  obtain ⟨protoFiles, evs, hglob, ht, hcount, hfirst⟩ :=
    generateCUEModule_count env fuel protoRoot globs w w' res h
  refine ⟨protoFiles, evs, hglob, ht, hcount, ?_, hfirst⟩
  intro fuel' hle f
  obtain ⟨protoFiles', evs', hglob', ht', hcount', -⟩ :=
    generateCUEModule_count env fuel' protoRoot globs w w' res
      (generateCUEModule_mono env fuel fuel' hle protoRoot globs w _ h)
  rw [hglob] at hglob'
  simp only [Except.ok.injEq] at hglob'
  subst hglob'
  have hevs : evs' = evs := List.append_cancel_left (ht'.symm.trans ht)
  subst hevs
  rw [← hcount' f, hcount f]

theorem chainEnv_run :
    ∃ w' res, generateCUEModule chainEnv 3 "./".toList ["a.proto".toList] emptyWorld =
      some (w', .ok res) ∧
      generatedFiles w'.trace = ["c.proto".toList, "b.proto".toList, "a.proto".toList] := by
  have h : (generateCUEModule chainEnv 3 "./".toList ["a.proto".toList] emptyWorld).map
      (fun x => (generatedFiles x.1.trace, x.2.isOk)) =
      some (["c.proto".toList, "b.proto".toList, "a.proto".toList], true) := by decide
  obtain ⟨⟨w', r⟩, hr, hx⟩ := Option.map_eq_some'.mp h
  simp only [Prod.mk.injEq] at hx
  cases r with
  | ok res => exact ⟨w', res, hr, hx.1⟩
  | err e => exact absurd hx.2 (by simp [Res.isOk])
  | panic => exact absurd hx.2 (by simp [Res.isOk])
  | exit c => exact absurd hx.2 (by simp [Res.isOk])

theorem generateCUEModule_generates_once_per_path_witness :
    ∃ w' res, generateCUEModule chainEnv 3 "./".toList ["a.proto".toList] emptyWorld =
        some (w', .ok res) ∧
      generatedFiles w'.trace = ["c.proto".toList, "b.proto".toList, "a.proto".toList] ∧
      ∃ protoFiles evs, (globLoop chainEnv ["a.proto".toList] [] emptyWorld).2 = .ok protoFiles ∧
        w'.trace = emptyWorld.trace ++ evs ∧
        (∀ f, evs.count (Event.generated f) =
          (protoFiles.map (fun file =>
            pathCount chainEnv "./".toList 3 (resolvePath "./".toList file) f)).sum) ∧
        (∀ fuel', 3 ≤ fuel' → ∀ f,
          (protoFiles.map (fun file =>
            pathCount chainEnv "./".toList fuel' (resolvePath "./".toList file) f)).sum =
          (protoFiles.map (fun file =>
            pathCount chainEnv "./".toList 3 (resolvePath "./".toList file) f)).sum) ∧
        ImportsFirst chainEnv "./".toList evs := by
  obtain ⟨w', res, hrun, hfiles⟩ := chainEnv_run
  exact ⟨w', res, hrun, hfiles,
    generateCUEModule_generates_once_per_path chainEnv 3 "./".toList ["a.proto".toList]
      emptyWorld w' res hrun⟩

/-! ## Cycles -/

theorem ReachesCycle.step {env : Env} {protoRoot p : GoString}
    (h : ReachesCycle env protoRoot p) :
    ∃ q, Imports env protoRoot p q ∧ ReachesCycle env protoRoot q := by
  obtain ⟨c, hpc, hcc⟩ := h
  rcases Relation.ReflTransGen.cases_head hpc with rfl | ⟨q, hpq, hqc⟩
  · obtain ⟨b, hpb, hbp⟩ := Relation.TransGen.head'_iff.mp hcc
    exact ⟨b, hpb, p, hbp, hcc⟩
  · exact ⟨q, hpq, c, hqc, hcc⟩

theorem importLoop_no_error (Inv : World → Prop)
    (gen : GoString → World → Option (World × Except Err (Option Instance))) :
    ∀ imps, (∀ imp ∈ imps, isWellKnown imp = false →
        ∀ w res, Inv w → gen imp w = some res → (∃ x, res.2 = .ok x) ∧ Inv res.1) →
      ∀ w res, Inv w → importLoop gen imps w = some res → res.2 = none ∧ Inv res.1 := by
  intro imps
  induction imps with
  | nil =>
    intro _ w res hw h
    simp only [importLoop, Option.some.injEq] at h
    subst h
    exact ⟨rfl, hw⟩
  | cons imp rest ih =>
    intro hgen w res hw h
    have hrest := ih (fun i hi => hgen i (List.mem_cons_of_mem _ hi))
    simp only [importLoop] at h
    by_cases hwk : isWellKnown imp = true
    · simp only [hwk, if_true] at h
      exact hrest w res hw h
    · simp only [hwk, Bool.false_eq_true, if_false] at h
      cases hg : gen imp w with
      | none => simp [hg] at h
      | some r =>
        obtain ⟨⟨x, hx⟩, hinv⟩ :=
          hgen imp (List.mem_cons_self _ _) (by simpa using hwk) w r hw hg
        obtain ⟨w1, r1⟩ := r
        simp only at hx hinv
        subst hx
        simp only [hg] at h
        exact hrest w1 res hinv h

theorem importLoop_none (Inv : World → Prop)
    (gen : GoString → World → Option (World × Except Err (Option Instance))) :
    ∀ imps, (∀ imp ∈ imps, isWellKnown imp = false →
        ∀ w res, Inv w → gen imp w = some res → (∃ x, res.2 = .ok x) ∧ Inv res.1) →
      (∃ imp ∈ imps, isWellKnown imp = false ∧ ∀ w, Inv w → gen imp w = none) →
      ∀ w, Inv w → importLoop gen imps w = none := by
  intro imps
  induction imps with
  | nil => rintro _ ⟨imp, himp, -⟩; simp at himp
  | cons imp rest ih =>
    rintro hgen ⟨bad, hbad, hbwk, hbnone⟩ w hw
    simp only [importLoop]
    by_cases hwk : isWellKnown imp = true
    · simp only [hwk, if_true]
      rcases List.mem_cons.mp hbad with rfl | hmem
      · simp [hwk] at hbwk
      · exact ih (fun i hi => hgen i (List.mem_cons_of_mem _ hi)) ⟨bad, hmem, hbwk, hbnone⟩ w hw
    · simp only [hwk, Bool.false_eq_true, if_false]
      cases hg : gen imp w with
      | none => rfl
      | some r =>
        obtain ⟨⟨x, hx⟩, hinv⟩ :=
          hgen imp (List.mem_cons_self _ _) (by simpa using hwk) w r hw hg
        obtain ⟨w1, r1⟩ := r
        simp only at hx hinv
        subst hx
        simp only
        rcases List.mem_cons.mp hbad with rfl | hmem
        · rw [hbnone w hw] at hg
          simp at hg
        · exact ih (fun i hi => hgen i (List.mem_cons_of_mem _ hi))
            ⟨bad, hmem, hbwk, hbnone⟩ w1 hinv

theorem generateCUEFile_no_error (env : Env) (moduleName protoRoot p0 : GoString)
    (Inv : World → Prop) (hok : NoFailure env moduleName protoRoot p0 Inv) :
    ∀ fuel protoFile w res, Reaches env protoRoot p0 (resolvePath protoRoot protoFile) →
      Inv w → generateCUEFile env fuel moduleName protoRoot protoFile w = some res →
      (∃ x, res.2 = .ok x) ∧ Inv res.1 := by
  intro fuel
  induction fuel with
  | zero => intro protoFile w res _ _ h; simp [generateCUEFile] at h
  | succ n ih =>
    intro protoFile w res hreach hw h
    obtain ⟨pkg, imports, hinfo, hlog, hemit⟩ := hok _ hreach
    simp only [generateCUEFile, extractProto, hinfo] at h
    cases hl : importLoop (generateCUEFile env n moduleName protoRoot) imports
        (w.log (.extractProto (resolvePath protoRoot protoFile))) with
    | none => simp [hl] at h
    | some r =>
      have hloop := importLoop_no_error Inv _ imports
        (fun imp himp hwk w res hw hres => ih imp w res
          (hreach.tail ⟨pkg, imports, imp, hinfo, himp, hwk, rfl⟩) hw hres) _ r (hlog w hw) hl
      obtain ⟨w2, r2⟩ := r
      obtain ⟨hnone, hinv2⟩ := hloop
      simp only at hnone hinv2
      subst hnone
      simp only [hl, Option.some.injEq] at h
      obtain ⟨w', x, hx, hinv'⟩ := hemit w2 hinv2
      rw [hx] at h
      subst h
      exact ⟨⟨x, rfl⟩, hinv'⟩

theorem generateCUEFile_diverges (env : Env) (moduleName protoRoot p0 : GoString)
    (Inv : World → Prop) (hok : NoFailure env moduleName protoRoot p0 Inv) :
    ∀ fuel protoFile w, Reaches env protoRoot p0 (resolvePath protoRoot protoFile) →
      ReachesCycle env protoRoot (resolvePath protoRoot protoFile) → Inv w →
      generateCUEFile env fuel moduleName protoRoot protoFile w = none := by
  intro fuel
  induction fuel with
  | zero => intro protoFile w _ _ _; rfl
  | succ n ih =>
    intro protoFile w hreach hcycle hw
    obtain ⟨pkg, imports, hinfo, hlog, -⟩ := hok _ hreach
    obtain ⟨q, ⟨pkg', imports', imp, hinfo', himp, hwk, hq⟩, hqc⟩ := hcycle.step
    rw [hinfo] at hinfo'
    simp only [Except.ok.injEq, Prod.mk.injEq] at hinfo'
    obtain ⟨-, rfl⟩ := hinfo'
    subst hq
    have hloop := importLoop_none Inv (generateCUEFile env n moduleName protoRoot) imports
      (fun i hi hiwk w res hw hres => generateCUEFile_no_error env moduleName protoRoot p0 Inv
        hok n i w res (hreach.tail ⟨pkg, imports, i, hinfo, hi, hiwk, rfl⟩) hw hres)
      ⟨imp, himp, hwk, fun w hw => ih imp w
        (hreach.tail ⟨pkg, imports, imp, hinfo, himp, hwk, rfl⟩) hqc hw⟩
      (w.log (.extractProto (resolvePath protoRoot protoFile))) (hlog w hw)
    simp only [generateCUEFile, extractProto, hinfo, hloop]

theorem importLoop_ok_all
    (gen : GoString → World → Option (World × Except Err (Option Instance))) :
    ∀ imps w w', importLoop gen imps w = some (w', none) →
      ∀ imp ∈ imps, isWellKnown imp = false → ∃ w0 w1 x, gen imp w0 = some (w1, .ok x) := by
  intro imps
  induction imps with
  | nil => intro w w' _ imp himp; simp at himp
  | cons i rest ih =>
    intro w w' h imp himp hiwk
    simp only [importLoop] at h
    by_cases hwk : isWellKnown i = true
    · simp only [hwk, if_true] at h
      rcases List.mem_cons.mp himp with rfl | hmem
      · simp [hwk] at hiwk
      · exact ih w w' h imp hmem hiwk
    · simp only [hwk, Bool.false_eq_true, if_false] at h
      cases hg : gen i w with
      | none => simp [hg] at h
      | some r =>
        obtain ⟨w1, r1⟩ := r
        cases r1 with
        | error e => simp [hg] at h
        | ok x =>
          simp only [hg] at h
          rcases List.mem_cons.mp himp with rfl | hmem
          · exact ⟨w, w1, x, hg⟩
          · exact ih w1 w' h imp hmem hiwk

theorem generateCUEFile_never_ok (env : Env) (moduleName protoRoot : GoString) :
    ∀ fuel protoFile w w' x, ReachesCycle env protoRoot (resolvePath protoRoot protoFile) →
      generateCUEFile env fuel moduleName protoRoot protoFile w ≠ some (w', .ok x) := by
  intro fuel
  induction fuel with
  | zero => intro protoFile w w' x _ h; simp [generateCUEFile] at h
  | succ n ih =>
    intro protoFile w w' x hcycle h
    obtain ⟨q, ⟨pkg, imports, imp, hinfo, himp, hwk, hq⟩, hqc⟩ := hcycle.step
    subst hq
    simp only [generateCUEFile, extractProto, hinfo] at h
    cases hl : importLoop (generateCUEFile env n moduleName protoRoot) imports
        (w.log (.extractProto (resolvePath protoRoot protoFile))) with
    | none => simp [hl] at h
    | some r =>
      obtain ⟨w2, r2⟩ := r
      cases r2 with
      | some e => simp [hl] at h
      | none =>
        obtain ⟨w0, w1, y, hy⟩ := importLoop_ok_all _ imports _ w2 hl imp himp hwk
        exact ih imp w0 w1 y hqc hy

theorem cycleEnv_imports : Imports cycleEnv "./".toList "a.proto".toList "a.proto".toList :=
  ⟨[], ["a.proto".toList], "a.proto".toList, rfl, by decide, by decide, by decide⟩

theorem cycleEnv_reachesCycle : ReachesCycle cycleEnv "./".toList "a.proto".toList :=
  ⟨"a.proto".toList, Relation.ReflTransGen.refl, Relation.TransGen.single cycleEnv_imports⟩

theorem cycleEnv_reaches (q : GoString)
    (h : Reaches cycleEnv "./".toList "a.proto".toList q) : q = "a.proto".toList := by
  induction h with
  | refl => rfl
  | tail _ hstep ih =>
    subst ih
    obtain ⟨pkg, imports, imp, hinfo, hmem, -, rfl⟩ := hstep
    have hi : protoInfo cycleEnv "a.proto".toList = .ok ([], ["a.proto".toList]) := rfl
    rw [hi] at hinfo
    simp only [Except.ok.injEq, Prod.mk.injEq] at hinfo
    obtain ⟨-, rfl⟩ := hinfo
    simp only [List.mem_singleton] at hmem
    subst hmem
    decide

theorem cycleEnv_noFailure :
    NoFailure cycleEnv [] "./".toList "a.proto".toList (fun _ => True) := by
  intro q hq
  rw [cycleEnv_reaches q hq]
  refine ⟨[], ["a.proto".toList], rfl, fun _ _ => trivial, fun w _ => ?_⟩
  simp [emitSchema, cycleEnv, exampleEnv]

/-- C3, as stated, fails on a file that imports itself: a cycle is reached
from `a.proto`, and `generateCUEFile` returns nothing on it, neither a result
nor an error, whatever recursion depth is allowed. -/
theorem generateCUEFile_self_import_never_returns :
    ReachesCycle cycleEnv "./".toList (resolvePath "./".toList "a.proto".toList) ∧
    ¬ ∃ fuel, (generateCUEFile cycleEnv fuel [] "./".toList "a.proto".toList
      emptyWorld).isSome := by
  have hres : resolvePath "./".toList "a.proto".toList = "a.proto".toList := by decide
  refine ⟨by rw [hres]; exact cycleEnv_reachesCycle, ?_⟩
  rintro ⟨fuel, hsome⟩
  have := generateCUEFile_diverges cycleEnv [] "./".toList "a.proto".toList (fun _ => True)
    cycleEnv_noFailure fuel "a.proto".toList emptyWorld
    (by rw [hres]; exact Relation.ReflTransGen.refl)
    (by rw [hres]; exact cycleEnv_reachesCycle) trivial
  rw [this] at hsome
  exact absurd hsome (by simp)

/-- C3, amended: when a cycle of imports that are not well-known is reached
from the root file, `generateCUEFile` never returns a result, whatever
recursion depth is allowed and whatever the world; and when no step fails on
the files reached from the root, in the worlds of the run (those that satisfy a
property `Inv` that holds at the start and that the steps keep),
`generateCUEFile` never returns at all: the recursion is unbounded and no
error is reported for the cycle. -/
theorem generateCUEFile_cycle_never_returns (env : Env)
    (moduleName protoRoot protoFile : GoString)
    (hcycle : ReachesCycle env protoRoot (resolvePath protoRoot protoFile)) :
    (∀ fuel w w' x,
      generateCUEFile env fuel moduleName protoRoot protoFile w ≠ some (w', .ok x)) ∧
    (∀ (Inv : World → Prop) (w : World),
      NoFailure env moduleName protoRoot (resolvePath protoRoot protoFile) Inv → Inv w →
      ∀ fuel, generateCUEFile env fuel moduleName protoRoot protoFile w = none) :=
  ⟨fun fuel w w' x =>
      generateCUEFile_never_ok env moduleName protoRoot fuel protoFile w w' x hcycle,
    fun Inv w hok hw fuel =>
      generateCUEFile_diverges env moduleName protoRoot _ Inv hok fuel protoFile w
        Relation.ReflTransGen.refl hcycle hw⟩

theorem exampleEnv_emitSchema (parse : GoString → Except Err (List Element))
    (load : GoString → List GoString → World → Option (World × Res Instance))
    (moduleName protoRoot q pkg : GoString) (w : World) (hpkg : pkg ≠ [])
    (hfree : ∀ c, w.stat (outDir moduleName pkg) ≠ some (.file c)) :
    ∃ w', emitSchema (exampleEnv parse load) moduleName protoRoot q pkg w = (w', .ok none) ∧
      ∀ p, filepathClean p ≠ filepathClean (outPath moduleName pkg (q ++ cueExtension)) →
        w'.stat p = w.stat p ∨ w'.stat p = some .dir := by
  unfold emitSchema
  simp only [exampleEnv, hpkg, if_false]
  unfold World.mkdirAll
  simp only [World.stat_log]
  cases hs : w.stat (outDir moduleName pkg) with
  | none =>
    simp only [World.create, World.write]
    refine ⟨_, rfl, fun p hp => ?_⟩
    by_cases hd : filepathClean p = filepathClean (outDir moduleName pkg)
    · right
      have hp2 := hp
      rw [hd] at hp2
      simp [World.stat, World.put, World.log, hd, hp2]
    · left
      simp [World.stat, World.put, World.log, hp, hd]
  | some n =>
    cases n with
    | file c => exact absurd hs (hfree c)
    | dir =>
      simp only [World.create, World.write]
      refine ⟨_, rfl, fun p hp => ?_⟩
      left
      simp [World.stat, World.put, World.log, hp]

theorem packageCycleEnv_imports :
    Imports packageCycleEnv "./".toList "a.proto".toList "a.proto".toList :=
  ⟨"github.com/foo/a;a".toList, ["b.proto".toList, "a.proto".toList], "a.proto".toList, rfl,
    by decide, by decide, by decide⟩

theorem packageCycleEnv_reachesCycle : ReachesCycle packageCycleEnv "./".toList "a.proto".toList :=
  ⟨"a.proto".toList, Relation.ReflTransGen.refl, Relation.TransGen.single packageCycleEnv_imports⟩

theorem packageCycleEnv_reaches (q : GoString)
    (h : Reaches packageCycleEnv "./".toList "a.proto".toList q) :
    q = "a.proto".toList ∨ q = "b.proto".toList := by
  induction h with
  | refl => exact Or.inl rfl
  | tail _ hstep ih =>
    obtain ⟨pkg, imports, imp, hinfo, hmem, -, rfl⟩ := hstep
    rcases ih with rfl | rfl
    · have hi : protoInfo packageCycleEnv "a.proto".toList =
          .ok ("github.com/foo/a;a".toList, ["b.proto".toList, "a.proto".toList]) := rfl
      rw [hi] at hinfo
      simp only [Except.ok.injEq, Prod.mk.injEq] at hinfo
      obtain ⟨-, rfl⟩ := hinfo
      simp only [List.mem_cons, List.mem_singleton, List.not_mem_nil, or_false] at hmem
      rcases hmem with rfl | rfl
      · exact Or.inr (by decide)
      · exact Or.inl (by decide)
    · have hi : protoInfo packageCycleEnv "b.proto".toList =
          .ok ("github.com/foo/b;b".toList, []) := rfl
      rw [hi] at hinfo
      simp only [Except.ok.injEq, Prod.mk.injEq] at hinfo
      obtain ⟨-, rfl⟩ := hinfo
      simp at hmem

theorem OutDirsFree.of_stat {w w' : World}
    (h : OutDirsFree w)
    (ha : w'.stat "a".toList = w.stat "a".toList ∨ w'.stat "a".toList = some .dir)
    (hb : w'.stat "b".toList = w.stat "b".toList ∨ w'.stat "b".toList = some .dir) :
    OutDirsFree w' := by
  refine ⟨fun c => ?_, fun c => ?_⟩
  · rcases ha with ha | ha
    · rw [ha]; exact h.1 c
    · rw [ha]; simp
  · rcases hb with hb | hb
    · rw [hb]; exact h.2 c
    · rw [hb]; simp

theorem packageCycleEnv_noFailure :
    NoFailure packageCycleEnv "github.com/foo".toList "./".toList "a.proto".toList
      OutDirsFree := by
  intro q hq
  rcases packageCycleEnv_reaches q hq with rfl | rfl
  · refine ⟨"github.com/foo/a;a".toList, ["b.proto".toList, "a.proto".toList], rfl,
      fun w hw => hw, fun w hw => ?_⟩
    have hdir : outDir "github.com/foo".toList "github.com/foo/a;a".toList = "a".toList := by
      decide
    obtain ⟨w', hrun, hstat⟩ := exampleEnv_emitSchema packageCycleParse loadNothing
      "github.com/foo".toList "./".toList "a.proto".toList "github.com/foo/a;a".toList w
      (by decide) (by rw [hdir]; exact hw.1)
    exact ⟨w', none, hrun, hw.of_stat (hstat _ (by decide)) (hstat _ (by decide))⟩
  · refine ⟨"github.com/foo/b;b".toList, [], rfl, fun w hw => hw, fun w hw => ?_⟩
    have hdir : outDir "github.com/foo".toList "github.com/foo/b;b".toList = "b".toList := by
      decide
    obtain ⟨w', hrun, hstat⟩ := exampleEnv_emitSchema packageCycleParse loadNothing
      "github.com/foo".toList "./".toList "b.proto".toList "github.com/foo/b;b".toList w
      (by decide) (by rw [hdir]; exact hw.2)
    exact ⟨w', none, hrun, hw.of_stat (hstat _ (by decide)) (hstat _ (by decide))⟩

theorem emptyWorld_outDirsFree : OutDirsFree emptyWorld :=
  ⟨fun c => by simp [emptyWorld, World.stat], fun c => by simp [emptyWorld, World.stat]⟩

theorem generateCUEFile_cycle_never_returns_witness :
    ReachesCycle packageCycleEnv "./".toList (resolvePath "./".toList "a.proto".toList) ∧
    NoFailure packageCycleEnv "github.com/foo".toList "./".toList
      (resolvePath "./".toList "a.proto".toList) OutDirsFree ∧
    OutDirsFree emptyWorld ∧
    (∀ fuel w w' x,
      generateCUEFile packageCycleEnv fuel "github.com/foo".toList "./".toList
        "a.proto".toList w ≠ some (w', .ok x)) ∧
    (∀ fuel, generateCUEFile packageCycleEnv fuel "github.com/foo".toList "./".toList
      "a.proto".toList emptyWorld = none) := by
  have hres : resolvePath "./".toList "a.proto".toList = "a.proto".toList := by decide
  have hc : ReachesCycle packageCycleEnv "./".toList
      (resolvePath "./".toList "a.proto".toList) := by
    rw [hres]; exact packageCycleEnv_reachesCycle
  have hn : NoFailure packageCycleEnv "github.com/foo".toList "./".toList
      (resolvePath "./".toList "a.proto".toList) OutDirsFree := by
    rw [hres]; exact packageCycleEnv_noFailure
  obtain ⟨h1, h2⟩ := generateCUEFile_cycle_never_returns packageCycleEnv
    "github.com/foo".toList "./".toList "a.proto".toList hc
  exact ⟨hc, hn, emptyWorld_outDirsFree, h1,
    h2 OutDirsFree emptyWorld hn emptyWorld_outDirsFree⟩

/-! ## The namespace -/

theorem stringsSplit_ne_nil (sep : Char) (s : GoString) : stringsSplit sep s ≠ [] := by
  cases s with
  | nil => simp [stringsSplit]
  | cons c cs =>
    simp only [stringsSplit]
    cases h : stringsSplit sep cs with
    | nil => simp
    | cons seg rest => by_cases hc : c = sep <;> simp [hc]

theorem stringsSplit_not_mem (sep : Char) :
    ∀ s seg, seg ∈ stringsSplit sep s → sep ∉ seg := by
  intro s
  induction s with
  | nil => intro seg h; simp [stringsSplit] at h; simp [h]
  | cons c cs ih =>
    intro seg h
    simp only [stringsSplit] at h
    cases hs : stringsSplit sep cs with
    | nil => exact absurd hs (stringsSplit_ne_nil sep cs)
    | cons first rest =>
      rw [hs] at h ih
      simp only at h
      by_cases hc : c = sep
      · simp only [hc, if_true, List.mem_cons] at h
        rcases h with rfl | rfl | h
        · simp
        · exact ih _ (List.mem_cons_self _ _)
        · exact ih _ (List.mem_cons_of_mem _ h)
      · simp only [hc, if_false, List.mem_cons] at h
        rcases h with rfl | h
        · have := ih first (List.mem_cons_self _ _)
          simp only [List.mem_cons, not_or]
          exact ⟨fun h => hc h.symm, this⟩
        · exact ih _ (List.mem_cons_of_mem _ h)

theorem stringsSplit_of_not_mem (sep : Char) :
    ∀ s, sep ∉ s → stringsSplit sep s = [s] := by
  intro s
  induction s with
  | nil => intro _; rfl
  | cons c cs ih =>
    intro h
    simp only [List.mem_cons, not_or] at h
    simp only [stringsSplit, ih h.2]
    have hc : ¬ c = sep := fun hc => h.1 hc.symm
    simp [hc]

theorem stringsSplit_append (sep : Char) (b : GoString) :
    ∀ a, sep ∉ a → stringsSplit sep (a ++ sep :: b) = a :: stringsSplit sep b := by
  intro a
  induction a with
  | nil =>
    intro _
    simp only [List.nil_append, stringsSplit]
    cases hs : stringsSplit sep b with
    | nil => exact absurd hs (stringsSplit_ne_nil sep b)
    | cons first rest => simp
  | cons c cs ih =>
    intro h
    simp only [List.mem_cons, not_or] at h
    have hc : ¬ c = sep := fun hc => h.1 hc.symm
    rw [List.cons_append, stringsSplit, ih h.2]
    simp [hc]

theorem filepathJoin_plain (s0 s1 : GoString) (h0 : PlainElement s0) (h1 : PlainElement s1)
    (hs0 : '/' ∉ s0) (hs1 : '/' ∉ s1) : filepathJoin [s0, s1] = s0 ++ '/' :: s1 := by
  obtain ⟨h0a, h0b, h0c⟩ := h0
  obtain ⟨h1a, h1b, h1c⟩ := h1
  have hd : [s0, s1].dropWhile (fun e => decide (e = [])) = [s0, s1] := by
    simp [List.dropWhile, h0a]
  have hj : stringsJoin ['/'] [s0, s1] = s0 ++ '/' :: s1 := by simp [stringsJoin]
  have hne : s0 ++ '/' :: s1 ≠ [] := by simp
  have hhead : ((s0 ++ '/' :: s1).head? = some '/') = False := by
    cases s0 with
    | nil => exact absurd rfl h0a
    | cons c cs =>
      simp only [List.mem_cons, not_or] at hs0
      simp only [List.cons_append, List.head?_cons, Option.some.injEq, eq_iff_iff, iff_false]
      exact fun h => hs0.1 h.symm
  have hsplit : stringsSplit '/' (s0 ++ '/' :: s1) = [s0, s1] := by
    rw [stringsSplit_append '/' s1 s0 hs0, stringsSplit_of_not_mem '/' s1 hs1]
  unfold filepathJoin
  rw [hd]
  simp only [hj]
  unfold filepathClean
  simp only [hne, if_false, hhead, hsplit, List.foldl, cleanStep, h0a, h0b, h0c, h1a, h1b, h1c,
    or_self, decide_False, Bool.false_eq_true]
  simp [stringsJoin]

/-- C4, as stated, fails: for the package string `a//b;b` the code computes the
namespace `a` (and writes it to the module file), where the first two segments
joined by `/` are `a/`; and when the first package string is empty and a later
one is not, the slice expression panics instead of using the later one. -/
theorem moduleNameOf_differs_from_spec :
    (moduleNameOf (stringsReplaceAll "a//b;b".toList [';'] [':']) = some "a".toList ∧
      deriveNamespaceSpec ["a//b;b".toList] = some "a/".toList ∧
      (generateCUEModule doubleSlashEnv 1 "./".toList ["x.proto".toList] emptyWorld).map
        (fun x => x.1.trace.contains
          (Event.write "./cue.mod/module.cue".toList "module: \"a\"".toList)) = some true) ∧
    (moduleNameOf (stringsReplaceAll [] [';'] [':']) = none ∧
      deriveNamespaceSpec [[], "github.com/foo/bar/baz".toList] =
        some "github.com/foo".toList) := by
  decide

/-- C4, amended: when the first package string, with `;` replaced by `:`, has
at least two segments between `/`, the namespace is `filepath.Join` of its
first two segments, and that is the module name with which `generateCUEModule`
writes the module files and generates every proto file; when the two segments
are neither empty nor `.` nor `..`, the namespace is the two segments joined by
`/`, which is also what the specification derives (so `github.com/foo/bar/baz`
gives `github.com/foo`). -/
theorem moduleNameOf_first_package (pkg : GoString) (rest : List GoString)
    (s0 s1 : GoString) (more : List GoString)
    (hsplit : stringsSplit '/' (stringsReplaceAll pkg [';'] [':']) = s0 :: s1 :: more) :
    moduleNameOf (stringsReplaceAll pkg [';'] [':']) = some (filepathJoin [s0, s1]) ∧
    (∀ env fuel protoRoot protoFiles cueRest w,
      generateFrom env fuel protoRoot protoFiles
          (stringsReplaceAll pkg [';'] [':'] :: cueRest) w =
        match generateModuleFiles env (filepathJoin [s0, s1]) w with
        | (w1, some e) => some (w1, .err e)
        | (w1, none) =>
          match instancesLoop env fuel (filepathJoin [s0, s1]) protoRoot protoFiles [] w1 with
          | none => none
          | some (w2, .error e) => some (w2, .err e)
          | some (w2, .ok instances) =>
            some (w2, .ok (stringsReplaceAll pkg [';'] [':'] :: cueRest, instances))) ∧
    (PlainElement s0 → PlainElement s1 →
      moduleNameOf (stringsReplaceAll pkg [';'] [':']) = some (s0 ++ '/' :: s1) ∧
      deriveNamespaceSpec (pkg :: rest) = some (s0 ++ '/' :: s1)) := by
  have hm : moduleNameOf (stringsReplaceAll pkg [';'] [':']) = some (filepathJoin [s0, s1]) := by
    simp only [moduleNameOf, hsplit]
  refine ⟨hm, ?_, fun h0 h1 => ?_⟩
  · intro env fuel protoRoot protoFiles cueRest w
    simp only [generateFrom, hm]
  · have hmem0 := stringsSplit_not_mem '/' _ s0 (by rw [hsplit]; simp)
    have hmem1 := stringsSplit_not_mem '/' _ s1 (by rw [hsplit]; simp)
    refine ⟨by rw [hm, filepathJoin_plain s0 s1 h0 h1 hmem0 hmem1], ?_⟩
    have hpkg : pkg ≠ [] := by
      rintro rfl
      simp [stringsReplaceAll, replaceGo, stringsSplit] at hsplit
    simp [deriveNamespaceSpec, List.find?, hpkg, hsplit, stringsJoin]

theorem moduleNameOf_first_package_witness :
    stringsSplit '/' (stringsReplaceAll "github.com/foo/bar/baz".toList [';'] [':']) =
      "github.com".toList :: "foo".toList :: ["bar".toList, "baz".toList] ∧
    PlainElement "github.com".toList ∧ PlainElement "foo".toList ∧
    moduleNameOf (stringsReplaceAll "github.com/foo/bar/baz".toList [';'] [':']) =
      some ("github.com".toList ++ '/' :: "foo".toList) ∧
    deriveNamespaceSpec ["github.com/foo/bar/baz".toList] =
      some ("github.com".toList ++ '/' :: "foo".toList) :=
  ⟨by decide, ⟨by decide, by decide, by decide⟩, ⟨by decide, by decide, by decide⟩,
    (moduleNameOf_first_package "github.com/foo/bar/baz".toList [] "github.com".toList
      "foo".toList ["bar".toList, "baz".toList] (by decide)).2.2
        ⟨by decide, by decide, by decide⟩ ⟨by decide, by decide, by decide⟩⟩

/-- C5: on a single proto file that declares no package, `generateCUEModule`
does not skip the derivation of the namespace: the slice expression of line 68
panics. -/
theorem generateCUEModule_no_package_panics :
    (generateCUEModule noPackageEnv 1 "./".toList ["x.proto".toList] emptyWorld).map
      (fun x => x.2) = some Res.panic := by
  decide

/-! ## The output directory -/

theorem replaceGo_skip (old new rest : GoString) :
    ∀ xs : GoString, replaceGo old new xs.length (xs ++ rest) = replaceGo old new 0 rest := by
  intro xs
  induction xs with
  | nil => rfl
  | cons x xs ih => simpa [replaceGo] using ih

theorem replaceGo_match (old new rest : GoString) (hold : old ≠ []) :
    replaceGo old new 0 (old ++ rest) = new ++ replaceGo old new 0 rest := by
  cases old with
  | nil => exact absurd rfl hold
  | cons c cs =>
    have hp : (c :: cs).isPrefixOf (c :: (cs ++ rest)) = true := by
      rw [List.isPrefixOf_iff_prefix]
      exact ⟨rest, rfl⟩
    rw [List.cons_append, replaceGo]
    simp only [reduceCtorEq, if_false, hp, if_true, List.length_cons, Nat.add_sub_cancel]
    rw [replaceGo_skip]

theorem replaceGo_no_match (old new : GoString) (hold : old ≠ []) :
    ∀ s : GoString, ¬ old <:+: s → replaceGo old new 0 s = s := by
  intro s
  induction s with
  | nil => intro _; simp [replaceGo, hold]
  | cons c cs ih =>
    intro h
    have hp : old.isPrefixOf (c :: cs) = false := by
      rw [Bool.eq_false_iff]
      intro hp
      exact h ((List.isPrefixOf_iff_prefix.mp hp).isInfix)
    have hcs : ¬ old <:+: cs := fun hi => h (hi.trans (List.suffix_cons c cs).isInfix)
    rw [replaceGo]
    simp only [hold, if_false, hp, Bool.false_eq_true, ih hcs]

theorem outDir_eq (ns pkg rest : GoString)
    (hpkg : (stringsSplit ';' pkg).headD [] = ns ++ '/' :: rest)
    (hno : ¬ (ns ++ ['/']) <:+: rest) : outDir ns pkg = rest := by
  unfold outDir stringsReplaceAll
  rw [hpkg]
  have : ns ++ '/' :: rest = (ns ++ ['/']) ++ rest := by simp
  rw [this, replaceGo_match _ _ _ (by simp), replaceGo_no_match _ _ (by simp) rest hno]
  rfl

/-- C6, as stated, fails: with the namespace `github.com/foo` and the package
`github.com/foo/vendor/github.com/foo/bar`, the output directory is
`vendor/bar`, not the package path without its leading namespace. -/
theorem outDir_removes_every_occurrence :
    (stringsSplit ';' "github.com/foo/vendor/github.com/foo/bar;bar".toList).headD [] =
      "github.com/foo".toList ++ '/' :: "vendor/github.com/foo/bar".toList ∧
    outDir "github.com/foo".toList "github.com/foo/vendor/github.com/foo/bar;bar".toList =
      "vendor/bar".toList ∧
    outDir "github.com/foo".toList "github.com/foo/vendor/github.com/foo/bar;bar".toList ≠
      "vendor/github.com/foo/bar".toList := by
  decide

/-- C6, amended: when the path part of the package (the text before the first
`;`) is the namespace, a `/` and a rest in which the namespace followed by `/`
does not occur again, the output directory is that rest, the output path is
`filepath.Join` of it and the base name of the generated file, and a
successful generation leaves the formatted schema in the file at that path. -/
theorem outDir_strips_namespace (env : Env) (ns pkg rest : GoString)
    (hpkg : (stringsSplit ';' pkg).headD [] = ns ++ '/' :: rest)
    (hno : ¬ (ns ++ ['/']) <:+: rest) :
    outDir ns pkg = rest ∧
    (∀ filename, outPath ns pkg filename = filepathJoin [rest, filepathBase filename]) ∧
    (∀ protoRoot p w w' x, emitSchema env ns protoRoot p pkg w = (w', .ok x) →
      ∃ cueFile b, env.protobufExtract protoRoot p = .ok cueFile ∧
        env.formatNode cueFile = .ok b ∧
        Event.mkdirAll rest ∈ w'.trace ∧
        w'.stat (filepathJoin [rest, filepathBase cueFile.Filename]) = some (.file b)) := by
  have hdir := outDir_eq ns pkg rest hpkg hno
  have hpath : ∀ filename, outPath ns pkg filename =
      filepathJoin [rest, filepathBase filename] := by
    intro filename
    simp only [outPath, hdir]
  have hne : pkg ≠ [] := by
    rintro rfl
    simp [stringsSplit] at hpkg
  refine ⟨hdir, hpath, ?_⟩
  intro protoRoot p w w' x h
  unfold emitSchema at h
  cases h1 : env.protobufExtract protoRoot p with
  | error e => simp [h1] at h
  | ok cueFile =>
    simp only [h1, hne, if_false] at h
    have hm := World.mkdirAll_trace env (w.log (.protobufExtract p)) (outDir ns pkg)
    rcases hmk : (w.log (.protobufExtract p)).mkdirAll env (outDir ns pkg) with ⟨w2, r2⟩
    rw [hmk] at h hm
    cases r2 with
    | some e => simp at h
    | none =>
      simp only at h
      have hc := World.create_trace env w2 (outPath ns pkg cueFile.Filename)
      rcases hcr : w2.create env (outPath ns pkg cueFile.Filename) with ⟨w3, r3⟩
      rw [hcr] at h hc
      cases r3 with
      | some e => simp at h
      | none =>
        simp only at h
        cases hf : env.formatNode cueFile with
        | error e => simp [hf] at h
        | ok b =>
          simp only [hf] at h
          unfold World.write at h
          cases he : env.writeErr w3.fs (outPath ns pkg cueFile.Filename) b with
          | some we => simp [he] at h
          | none =>
            simp only [he, Prod.mk.injEq, Except.ok.injEq] at h
            obtain ⟨rfl, -⟩ := h
            simp only at hc hm
            refine ⟨cueFile, b, rfl, hf, ?_, ?_⟩
            · simp only [World.log_trace, World.put_trace, hc, hm, hdir]
              simp
            · rw [← hpath cueFile.Filename]
              simp

theorem outDir_strips_namespace_witness :
    (stringsSplit ';' "github.com/foo/bar;bar".toList).headD [] =
      "github.com/foo".toList ++ '/' :: "bar".toList ∧
    ¬ ("github.com/foo".toList ++ ['/']) <:+: "bar".toList ∧
    outDir "github.com/foo".toList "github.com/foo/bar;bar".toList = "bar".toList ∧
    (∀ filename, outPath "github.com/foo".toList "github.com/foo/bar;bar".toList filename =
      filepathJoin ["bar".toList, filepathBase filename]) ∧
    (∀ protoRoot p w w' x,
      emitSchema chainEnv "github.com/foo".toList protoRoot p "github.com/foo/bar;bar".toList w =
        (w', .ok x) →
      ∃ cueFile b, chainEnv.protobufExtract protoRoot p = .ok cueFile ∧
        chainEnv.formatNode cueFile = .ok b ∧
        Event.mkdirAll "bar".toList ∈ w'.trace ∧
        w'.stat (filepathJoin ["bar".toList, filepathBase cueFile.Filename]) =
          some (.file b)) ∧
    (emitSchema chainEnv "github.com/foo".toList "./".toList "c.proto".toList
      "github.com/foo/bar;bar".toList emptyWorld).1.stat "bar/c.proto.cue".toList =
        some (.file "c.proto".toList) := by
  have hno : ¬ ("github.com/foo".toList ++ ['/']) <:+: "bar".toList := by
    intro h
    have := h.length_le
    simp at this
  obtain ⟨h1, h2, h3⟩ := outDir_strips_namespace chainEnv "github.com/foo".toList
    "github.com/foo/bar;bar".toList "bar".toList (by decide) hno
  exact ⟨by decide, hno, h1, h2, h3, by decide⟩

/-! ## The well-known files -/

theorem downloadFile_ok (env : Env) (url path : GoString) (w w' : World)
    (h : downloadFile env url path w = (w', none)) :
    ∃ body, env.httpGet url = .ok body ∧
      w'.trace = w.trace ++ [.create path, .httpGet url, .write path body] ∧
      w'.stat path = some (.file body) := by
  unfold downloadFile World.create at h
  cases hc : env.createErr w.fs path with
  | some e => simp [hc] at h
  | none =>
    simp only [hc] at h
    cases hg : env.httpGet url with
    | error e => simp [hg] at h
    | ok body =>
      simp only [hg] at h
      unfold World.write at h
      cases hw : env.writeErr (((w.log (.create path)).put path (.file [])).log
          (.httpGet url)).fs path body with
      | some we =>
        simp only [hw] at h
        simp at h
      | none =>
        simp only [hw, Prod.mk.injEq, and_true] at h
        subst h
        exact ⟨body, rfl, by simp, by simp⟩

theorem downloadLoop_single (env : Env) (key url : GoString) (w w' : World)
    (h : downloadLoop env [(key, url)] w = (w', none)) :
    ∃ body, env.httpGet url = .ok body ∧
      w'.trace = w.trace ++ [.mkdirAll (filepathDir (cachePath key)), .create (cachePath key),
        .httpGet url, .write (cachePath key) body] ∧
      w'.stat (cachePath key) = some (.file body) := by
  simp only [downloadLoop] at h
  have hm := World.mkdirAll_trace env w (filepathDir (cachePath key))
  rcases hmr : w.mkdirAll env (filepathDir (cachePath key)) with ⟨w1, r1⟩
  rw [hmr] at h hm
  cases r1 with
  | some e => simp at h
  | none =>
    simp only at h hm
    rcases hdr : downloadFile env url (cachePath key) w1 with ⟨w2, r2⟩
    rw [hdr] at h
    cases r2 with
    | some e => simp at h
    | none =>
      simp only [Prod.mk.injEq, and_true] at h
      subst h
      obtain ⟨body, hbody, ht, hs⟩ := downloadFile_ok env url (cachePath key) w1 w2 hdr
      exact ⟨body, hbody, by rw [ht, hm]; simp, hs⟩

theorem downloadTargets_of_present (w : World) (n : Node)
    (h : w.stat (cachePath "google/protobuf/timestamp.proto".toList) = some n) :
    downloadTargets w = [] := by
  simp only [downloadTargets, wellKnowns, List.filter, h, Option.isNone]

theorem downloadTargets_of_missing (w : World)
    (h : w.stat (cachePath "google/protobuf/timestamp.proto".toList) = none) :
    downloadTargets w = wellKnowns := by
  simp only [downloadTargets, wellKnowns, List.filter, h, Option.isNone]

theorem mem_wellKnowns (key url : GoString) (h : (key, url) ∈ wellKnowns) :
    key = "google/protobuf/timestamp.proto".toList ∧ wellKnowns = [(key, url)] := by
  simp only [wellKnowns, List.mem_singleton, Prod.mk.injEq] at h
  obtain ⟨rfl, rfl⟩ := h
  exact ⟨rfl, rfl⟩

/-- C7: when `downloadWellKnowns` returns without error, the events it adds
are such that every entry of the registry whose cache path did not exist is
requested once and its body written once to that path, which holds the body
afterwards; every entry whose cache path existed is not requested and its path
is unchanged; only missing entries are requested; and when every entry exists
nothing happens at all. -/
theorem downloadWellKnowns_downloads_missing (env : Env) (w : World)
    (h : (downloadWellKnowns env w).2 = none) :
    ∃ evs, (downloadWellKnowns env w).1.trace = w.trace ++ evs ∧
      (∀ key url, (key, url) ∈ wellKnowns → w.stat (cachePath key) = none →
        evs.count (Event.httpGet url) = 1 ∧
        ∃ body, env.httpGet url = .ok body ∧
          evs.count (Event.write (cachePath key) body) = 1 ∧
          (downloadWellKnowns env w).1.stat (cachePath key) = some (.file body)) ∧
      (∀ key url, (key, url) ∈ wellKnowns → w.stat (cachePath key) ≠ none →
        Event.httpGet url ∉ evs ∧
        (downloadWellKnowns env w).1.stat (cachePath key) = w.stat (cachePath key)) ∧
      (∀ url, Event.httpGet url ∈ evs →
        ∃ key, (key, url) ∈ wellKnowns ∧ w.stat (cachePath key) = none) ∧
      ((∀ key url, (key, url) ∈ wellKnowns → w.stat (cachePath key) ≠ none) →
        evs = [] ∧ (downloadWellKnowns env w).1.fs = w.fs) := by
  cases hs : w.stat (cachePath "google/protobuf/timestamp.proto".toList) with
  | some n =>
    have hrun : downloadWellKnowns env w = (w, none) := by
      simp [downloadWellKnowns, downloadTargets_of_present w n hs]
    rw [hrun]
    refine ⟨[], by simp, ?_, ?_, by simp, fun _ => ⟨rfl, rfl⟩⟩
    · intro key url hmem hmiss
      obtain ⟨rfl, -⟩ := mem_wellKnowns key url hmem
      rw [hs] at hmiss
      exact absurd hmiss (by simp)
    · intro key url _ _
      exact ⟨by simp, rfl⟩
  | none =>
    have hrun : downloadWellKnowns env w = downloadLoop env wellKnowns w := by
      simp [downloadWellKnowns, downloadTargets_of_missing w hs, wellKnowns]
    rw [hrun] at h ⊢
    have hall : ∀ key url, (key, url) ∈ wellKnowns →
        ∃ body, env.httpGet url = .ok body ∧
          (downloadLoop env wellKnowns w).1.trace =
            w.trace ++ [.mkdirAll (filepathDir (cachePath key)), .create (cachePath key),
              .httpGet url, .write (cachePath key) body] ∧
          (downloadLoop env wellKnowns w).1.stat (cachePath key) = some (.file body) := by
      intro key url hmem
      obtain ⟨-, hwk⟩ := mem_wellKnowns key url hmem
      rw [hwk] at h ⊢
      exact downloadLoop_single env key url w _ (Prod.ext rfl h)
    obtain ⟨key0, url0, hmem0⟩ : ∃ key url, (key, url) ∈ wellKnowns :=
      ⟨_, _, List.mem_singleton.mpr rfl⟩
    obtain ⟨body0, hbody0, ht0, hs0⟩ := hall key0 url0 hmem0
    obtain ⟨hkey0, hwk0⟩ := mem_wellKnowns key0 url0 hmem0
    refine ⟨_, ht0, ?_, ?_, ?_, ?_⟩
    · intro key url hmem _
      rw [hwk0, List.mem_singleton, Prod.mk.injEq] at hmem
      obtain ⟨rfl, rfl⟩ := hmem
      refine ⟨by simp [List.count_cons], body0, hbody0, by simp [List.count_cons], hs0⟩
    · intro key url hmem hpresent
      obtain ⟨rfl, -⟩ := mem_wellKnowns key url hmem
      exact absurd hs hpresent
    · intro url hurl
      simp only [List.mem_cons, reduceCtorEq, Event.httpGet.injEq, List.mem_singleton,
        false_or, or_false, List.not_mem_nil] at hurl
      subst hurl
      exact ⟨key0, hmem0, by rw [hkey0]; exact hs⟩
    · intro hpresent
      exact absurd (by rw [hkey0]; exact hs) (hpresent key0 url0 hmem0)

theorem downloadWellKnowns_downloads_missing_witness :
    (downloadWellKnowns chainEnv emptyWorld).2 = none ∧
    ∃ evs, (downloadWellKnowns chainEnv emptyWorld).1.trace = emptyWorld.trace ++ evs ∧
      (∀ key url, (key, url) ∈ wellKnowns → emptyWorld.stat (cachePath key) = none →
        evs.count (Event.httpGet url) = 1 ∧
        ∃ body, chainEnv.httpGet url = .ok body ∧
          evs.count (Event.write (cachePath key) body) = 1 ∧
          (downloadWellKnowns chainEnv emptyWorld).1.stat (cachePath key) =
            some (.file body)) ∧
      (∀ key url, (key, url) ∈ wellKnowns → emptyWorld.stat (cachePath key) ≠ none →
        Event.httpGet url ∉ evs ∧
        (downloadWellKnowns chainEnv emptyWorld).1.stat (cachePath key) =
          emptyWorld.stat (cachePath key)) ∧
      (∀ url, Event.httpGet url ∈ evs →
        ∃ key, (key, url) ∈ wellKnowns ∧ emptyWorld.stat (cachePath key) = none) ∧
      ((∀ key url, (key, url) ∈ wellKnowns → emptyWorld.stat (cachePath key) ≠ none) →
        evs = [] ∧ (downloadWellKnowns chainEnv emptyWorld).1.fs = emptyWorld.fs) :=
  ⟨by decide, downloadWellKnowns_downloads_missing chainEnv emptyWorld (by decide)⟩

theorem downloadFile_request_fails (env : Env) (url path e : GoString) (w : World)
    (hcreate : env.createErr w.fs path = none) (hget : env.httpGet url = .error e) :
    (downloadFile env url path w).2 = some e ∧
    (downloadFile env url path w).1.stat path = some (.file []) ∧
    (downloadFile env url path w).1.trace = w.trace ++ [.create path, .httpGet url] := by
  simp [downloadFile, World.create, hcreate, hget]

/-- C10: for an entry of the registry whose cache path is missing, when the
directory and the file can be created and the HTTP request fails, `downloadFile`
returns the error of the request and leaves an empty file at the cache path;
`downloadWellKnowns` ends that way, and a call of `downloadWellKnowns` in the
world it leaves selects no target and returns without error, without
requesting anything and without changing the world. -/
theorem downloadWellKnowns_failed_request_leaves_empty_file (env : Env) (w : World)
    (key url e : GoString) (hmem : (key, url) ∈ wellKnowns)
    (hmissing : w.stat (cachePath key) = none)
    (hmkdir : (w.mkdirAll env (filepathDir (cachePath key))).2 = none)
    (hcreate : env.createErr (w.mkdirAll env (filepathDir (cachePath key))).1.fs
      (cachePath key) = none)
    (hget : env.httpGet url = .error e) :
    (downloadFile env url (cachePath key)
      (w.mkdirAll env (filepathDir (cachePath key))).1).2 = some e ∧
    (downloadFile env url (cachePath key)
      (w.mkdirAll env (filepathDir (cachePath key))).1).1.stat (cachePath key) =
        some (.file []) ∧
    (downloadWellKnowns env w).2 = some e ∧
    (downloadWellKnowns env w).1.stat (cachePath key) = some (.file []) ∧
    downloadTargets (downloadWellKnowns env w).1 = [] ∧
    downloadWellKnowns env (downloadWellKnowns env w).1 = ((downloadWellKnowns env w).1, none) := by
  obtain ⟨hkey, hwk⟩ := mem_wellKnowns key url hmem
  obtain ⟨hr, hs, -⟩ := downloadFile_request_fails env url (cachePath key) e
    (w.mkdirAll env (filepathDir (cachePath key))).1 hcreate hget
  have hrun : downloadWellKnowns env w = downloadFile env url (cachePath key)
      (w.mkdirAll env (filepathDir (cachePath key))).1 := by
    have h1 : downloadWellKnowns env w = downloadLoop env wellKnowns w := by
      simp [downloadWellKnowns, downloadTargets_of_missing w (by rw [← hkey]; exact hmissing), wellKnowns]
    rw [h1, hwk]
    simp only [downloadLoop]
    rcases hm : w.mkdirAll env (filepathDir (cachePath key)) with ⟨w1, r1⟩
    rw [hm] at hmkdir hr
    simp only at hmkdir hr
    subst hmkdir
    simp only
    rcases hd : downloadFile env url (cachePath key) w1 with ⟨w2, r2⟩
    rw [hd] at hr
    simp only at hr
    subst hr
    rfl
  have htargets : downloadTargets (downloadWellKnowns env w).1 = [] := by
    rw [hrun]
    exact downloadTargets_of_present _ _ (by rw [← hkey]; exact hs)
  refine ⟨hr, hs, by rw [hrun]; exact hr, by rw [hrun]; exact hs, htargets, ?_⟩
  generalize downloadWellKnowns env w = x at htargets ⊢
  simp only [downloadWellKnowns, htargets, List.length_nil, if_true]

theorem downloadWellKnowns_failed_request_leaves_empty_file_witness :
    ("google/protobuf/timestamp.proto".toList,
      "https://raw.githubusercontent.com/protocolbuffers/protobuf/master/src/google/protobuf/timestamp.proto".toList)
      ∈ wellKnowns ∧
    emptyWorld.stat (cachePath "google/protobuf/timestamp.proto".toList) = none ∧
    (downloadWellKnowns offlineEnv emptyWorld).2 =
      some "dial tcp: network is unreachable".toList ∧
    (downloadWellKnowns offlineEnv emptyWorld).1.stat
      (cachePath "google/protobuf/timestamp.proto".toList) = some (.file []) ∧
    downloadTargets (downloadWellKnowns offlineEnv emptyWorld).1 = [] ∧
    downloadWellKnowns offlineEnv (downloadWellKnowns offlineEnv emptyWorld).1 =
      ((downloadWellKnowns offlineEnv emptyWorld).1, none) :=
  ⟨List.mem_singleton.mpr rfl, by decide,
    (downloadWellKnowns_failed_request_leaves_empty_file offlineEnv emptyWorld
      "google/protobuf/timestamp.proto".toList
      "https://raw.githubusercontent.com/protocolbuffers/protobuf/master/src/google/protobuf/timestamp.proto".toList
      "dial tcp: network is unreachable".toList (List.mem_singleton.mpr rfl) (by decide) (by decide)
      (by decide) rfl).2.2⟩

/-! ## The test-case file -/

theorem World.stat_put_other (w : World) (p q : GoString) (n : Node)
    (h : filepathClean q ≠ filepathClean p) : (w.put p n).stat q = w.stat q := by
  simp [World.stat, World.put, h]

theorem World.mkdirAll_of_dir (env : Env) (w : World) (p : GoString)
    (h : w.stat p = some .dir) : w.mkdirAll env p = (w.log (.mkdirAll p), none) := by
  simp [World.mkdirAll, h]

theorem World.mkdirAll_ok (env : Env) (w : World) (p : GoString)
    (h : (w.mkdirAll env p).2 = none) : (w.mkdirAll env p).1.stat p = some .dir := by
  unfold World.mkdirAll at h ⊢
  cases hs : w.stat p with
  | none =>
    simp only [hs] at h ⊢
    cases he : env.mkdirAllErr w.fs p with
    | some e => simp [he] at h
    | none => simp
  | some n =>
    cases n with
    | file c => simp [hs] at h
    | dir => simpa using hs

theorem World.writeFile_ok (env : Env) (w w' : World) (p d : GoString)
    (h : w.writeFile env p d = (w', none)) :
    w'.trace = w.trace ++ [.create p, .write p d] ∧ w'.stat p = some (.file d) ∧
      ∀ q, filepathClean q ≠ filepathClean p → w'.stat q = w.stat q := by
  unfold World.writeFile World.create at h
  cases hc : env.createErr w.fs p with
  | some e => simp [hc] at h
  | none =>
    simp only [hc] at h
    unfold World.write at h
    cases hw : env.writeErr ((w.log (.create p)).put p (.file [])).fs p d with
    | some we =>
      simp only [hw] at h
      simp at h
    | none =>
      simp only [hw, Prod.mk.injEq, and_true] at h
      subst h
      refine ⟨by simp, by simp, fun q hq => ?_⟩
      rw [World.stat_put_other _ _ _ _ hq, World.stat_log, World.stat_put_other _ _ _ _ hq,
        World.stat_log]

theorem World.writeFile_trace (env : Env) (w : World) (p d : GoString) :
    (w.writeFile env p d).1.trace = w.trace ++ [.create p] ∨
    (w.writeFile env p d).1.trace = w.trace ++ [.create p, .write p d] := by
  unfold World.writeFile
  have hc := World.create_trace env w p
  rcases hcr : w.create env p with ⟨w1, r1⟩
  rw [hcr] at hc
  cases r1 with
  | some e => exact Or.inl hc
  | none =>
    right
    simp only at hc ⊢
    rw [World.write_trace, hc]
    simp

theorem writeTestCase_spec (env : Env) (path : GoString) (ins : Instance) (w : World) :
    (∃ tail, (writeTestCase env path ins w).1.trace = w.trace ++ Event.validate ins :: tail ∧
      (tail = [] ∨ tail = [.create path] ∨
        tail = [.create path, .write path (env.formatInstance ins)])) ∧
    ((writeTestCase env path ins w).2 = .ok () →
      env.validate ins = none ∧
      (writeTestCase env path ins w).1.stat path = some (.file (env.formatInstance ins)) ∧
      ∀ q, filepathClean q ≠ filepathClean path →
        (writeTestCase env path ins w).1.stat q = w.stat q) := by
  unfold writeTestCase
  cases hv : env.validate ins with
  | some e => exact ⟨⟨[], by simp, Or.inl rfl⟩, by simp⟩
  | none =>
    simp only
    have ht := World.writeFile_trace env (w.log (.validate ins)) path (env.formatInstance ins)
    rcases hw : (w.log (.validate ins)).writeFile env path (env.formatInstance ins) with ⟨w2, r2⟩
    rw [hw] at ht
    simp only [World.log_trace, List.append_assoc, List.singleton_append] at ht
    cases r2 with
    | some e =>
      simp only
      refine ⟨?_, by simp⟩
      rcases ht with ht | ht
      · exact ⟨_, ht, Or.inr (Or.inl rfl)⟩
      · exact ⟨_, ht, Or.inr (Or.inr rfl)⟩
    | none =>
      obtain ⟨ht2, hs2, hother⟩ := World.writeFile_ok env _ w2 path _ hw
      simp only
      refine ⟨⟨_, by rw [ht2]; simp, Or.inr (Or.inr rfl)⟩, fun _ => ⟨trivial, hs2, ?_⟩⟩
      intro q hq
      rw [hother q hq, World.stat_log]

theorem globLoop_no_files (env : Env) :
    ∀ globs acc w, (∀ g ∈ globs, env.glob g = .ok []) →
      globLoop env globs acc w = (⟨w.fs, w.trace ++ globs.map Event.glob⟩, .ok acc) := by
  intro globs
  induction globs with
  | nil => intro acc w _; simp [globLoop]
  | cons g rest ih =>
    intro acc w h
    simp only [globLoop, h g (List.mem_cons_self _ _)]
    rw [ih _ _ (fun g' hg' => h g' (List.mem_cons_of_mem _ hg'))]
    simp

theorem generateCUEModule_no_files (env : Env) (fuel : Nat) (protoRoot : GoString)
    (globs : List GoString) (w : World) (h : ∀ g ∈ globs, env.glob g = .ok []) :
    generateCUEModule env fuel protoRoot globs w =
      some (⟨w.fs, w.trace ++ globs.map Event.glob⟩, .err noProtofiles) := by
  unfold generateCUEModule
  rw [globLoop_no_files env globs [] w h]
  simp

theorem writeTestCase_cases (env : Env) (path : GoString) (ins : Instance) (w : World) :
    (∀ e, env.validate ins = some e →
      writeTestCase env path ins w = (w.log (.validate ins), .err e)) ∧
    (env.validate ins = none →
      (∀ e, env.createErr w.fs path = some e →
        writeTestCase env path ins w = ((w.log (.validate ins)).log (.create path), .err e)) ∧
      (env.createErr w.fs path = none →
        (∀ written e,
          env.writeErr (w.put path (.file [])).fs path (env.formatInstance ins) =
            some (written, e) →
          (writeTestCase env path ins w).2 = .err e ∧
          (writeTestCase env path ins w).1.trace = w.trace ++ [.validate ins, .create path,
            .write path (env.formatInstance ins)] ∧
          (writeTestCase env path ins w).1.stat path = some (.file written)) ∧
        (env.writeErr (w.put path (.file [])).fs path (env.formatInstance ins) = none →
          (writeTestCase env path ins w).2 = .ok () ∧
          (writeTestCase env path ins w).1.trace = w.trace ++ [.validate ins, .create path,
            .write path (env.formatInstance ins)] ∧
          (writeTestCase env path ins w).1.stat path =
            some (.file (env.formatInstance ins)) ∧
          ∀ q, filepathClean q ≠ filepathClean path →
            (writeTestCase env path ins w).1.stat q = w.stat q))) := by
  refine ⟨fun e hv => by simp [writeTestCase, hv], fun hv => ⟨fun e hc => ?_, fun hc => ?_⟩⟩
  · simp only [writeTestCase, hv, World.writeFile, World.create, World.log_fs, hc]
  · refine ⟨fun written e hw => ?_, fun hw => ?_⟩
    · have hw2 : env.writeErr ((((w.log (.validate ins)).log (.create path)).put path
          (.file [])).fs) path (env.formatInstance ins) = some (written, e) := hw
      have hrun : writeTestCase env path ins w =
          (((((w.log (.validate ins)).log (.create path)).put path (.file [])).log
            (.write path (env.formatInstance ins))).put path (.file written), .err e) := by
        simp only [writeTestCase, hv, World.writeFile, World.create, World.log_fs, hc,
          World.write, hw2]
      rw [hrun]
      exact ⟨rfl, by simp, by simp⟩
    · have hw2 : env.writeErr ((((w.log (.validate ins)).log (.create path)).put path
          (.file [])).fs) path (env.formatInstance ins) = none := hw
      have hrun : writeTestCase env path ins w =
          (((((w.log (.validate ins)).log (.create path)).put path (.file [])).log
            (.write path (env.formatInstance ins))).put path
              (.file (env.formatInstance ins)), .ok ()) := by
        simp only [writeTestCase, hv, World.writeFile, World.create, World.log_fs, hc,
          World.write, hw2]
      rw [hrun]
      refine ⟨rfl, by simp, by simp, fun q hq => ?_⟩
      rw [World.stat_put_other _ _ _ _ hq, World.stat_log, World.stat_put_other _ _ _ _ hq,
        World.stat_log, World.stat_log]

/-- C8: when every glob pattern expands to no file, `generateCUEModule`
returns the error `no protofiles` after the glob calls alone, without
downloading, extracting a package, writing module files or generating a
schema; and `Add`, whose helper hands that error on, does not merge: it
validates the compiled skeleton, returns the error of the validation, of
`os.Create` or of the write when one of them fails, and otherwise returns
without error with the formatted skeleton written to the test-case file. -/
theorem Add_without_protofiles (env : Env) (fuel : Nat) (testName : GoString)
    (rest : List GoString) (protoPath : GoString) (globs : List GoString) (w : World)
    (ins : Instance)
    (hglobs : ∀ g ∈ globs, env.glob g = .ok [])
    (hmkdir : (w.mkdirAll env testDir).2 = none)
    (habsent : (w.mkdirAll env testDir).1.stat (testCasePath env testName) = none)
    (hcompile : env.compile (env.toLowerCamel testName ++ cueExtension)
      (testCaseSchema testName) = .ok ins)
    (hload : ∀ w0 w1 e,
      generateCUEModule env fuel (protoRootOf protoPath) globs w0 = some (w1, .err e) →
      env.loadSchemasFromProto (protoRootOf protoPath) globs w0 = some (w1, .err e)) :
    (∀ w0, generateCUEModule env fuel (protoRootOf protoPath) globs w0 =
      some (⟨w0.fs, w0.trace ++ globs.map Event.glob⟩, .err noProtofiles)) ∧
    ∃ w3 : World, w3.fs = (w.mkdirAll env testDir).1.fs ∧
      w3.trace = w.trace ++ [Event.mkdirAll testDir,
        Event.compile (env.toLowerCamel testName ++ cueExtension) (testCaseSchema testName)] ++
        globs.map Event.glob ∧
      (∀ e, env.validate ins = some e →
        Add env (testName :: rest) protoPath globs w =
          some (w3.log (.validate ins), .err e)) ∧
      (env.validate ins = none →
        (∀ e, env.createErr w3.fs (testCasePath env testName) = some e →
          Add env (testName :: rest) protoPath globs w =
            some ((w3.log (.validate ins)).log (.create (testCasePath env testName)),
              .err e)) ∧
        (env.createErr w3.fs (testCasePath env testName) = none →
          (∀ written e,
            env.writeErr (w3.put (testCasePath env testName) (.file [])).fs
              (testCasePath env testName) (env.formatInstance ins) = some (written, e) →
            ∃ w', Add env (testName :: rest) protoPath globs w = some (w', .err e) ∧
              w'.trace = w3.trace ++ [.validate ins, .create (testCasePath env testName),
                .write (testCasePath env testName) (env.formatInstance ins)] ∧
              w'.stat (testCasePath env testName) = some (.file written)) ∧
          (env.writeErr (w3.put (testCasePath env testName) (.file [])).fs
              (testCasePath env testName) (env.formatInstance ins) = none →
            ∃ w', Add env (testName :: rest) protoPath globs w = some (w', .ok ()) ∧
              w'.trace = w3.trace ++ [.validate ins, .create (testCasePath env testName),
                .write (testCasePath env testName) (env.formatInstance ins)] ∧
              w'.stat (testCasePath env testName) =
                some (.file (env.formatInstance ins)) ∧
              ∀ q, filepathClean q ≠ filepathClean (testCasePath env testName) →
                w'.stat q = w3.stat q))) := by
  have hmod := fun w0 => generateCUEModule_no_files env fuel (protoRootOf protoPath) globs w0 hglobs
  refine ⟨hmod, ?_⟩
  have hm := World.mkdirAll_trace env w testDir
  rcases hmr : w.mkdirAll env testDir with ⟨w1, r1⟩
  rw [hmr] at hm hmkdir habsent
  simp only at hm hmkdir habsent
  subst hmkdir
  have hl := hload (w1.log (.compile (env.toLowerCamel testName ++ cueExtension)
    (testCaseSchema testName))) _ _ (hmod _)
  generalize hw3 : (⟨(w1.log (.compile (env.toLowerCamel testName ++ cueExtension)
      (testCaseSchema testName))).fs,
     (w1.log (.compile (env.toLowerCamel testName ++ cueExtension)
      (testCaseSchema testName))).trace ++ globs.map Event.glob⟩ : World) = w3 at hl
  have hadd : Add env (testName :: rest) protoPath globs w =
      some (writeTestCase env (testCasePath env testName) ins w3) := by
    simp only [Add, hmr, habsent, hcompile, hl, if_true]
  obtain ⟨hval, hrest⟩ := writeTestCase_cases env (testCasePath env testName) ins w3
  refine ⟨w3, ?_, ?_, ?_, ?_⟩
  · rw [← hw3]; rfl
  · rw [← hw3]; simp [hm]
  · intro e hv
    rw [hadd, hval e hv]
  · intro hv
    obtain ⟨hcreate, hwrite⟩ := hrest hv
    refine ⟨fun e hc => by rw [hadd, hcreate e hc], fun hc => ?_⟩
    obtain ⟨hfail, hsucc⟩ := hwrite hc
    refine ⟨fun written e hw => ?_, fun hw => ?_⟩
    · obtain ⟨h1, h2, h3⟩ := hfail written e hw
      exact ⟨_, by rw [hadd, ← h1], h2, h3⟩
    · obtain ⟨h1, h2, h3, h4⟩ := hsucc hw
      exact ⟨_, by rw [hadd, ← h1], h2, h3, h4⟩

theorem noFilesEnv_load (protoPath : GoString) (globs : List GoString) (w0 w1 : World) (e : Err)
    (h : generateCUEModule noFilesEnv 8 (protoRootOf protoPath) globs w0 = some (w1, .err e)) :
    noFilesEnv.loadSchemasFromProto (protoRootOf protoPath) globs w0 = some (w1, .err e) := by
  rw [generateCUEModule_no_files noFilesEnv 8 _ globs w0 (fun _ _ => rfl)] at h
  simp only [Option.some.injEq, Prod.mk.injEq, Res.err.injEq] at h
  obtain ⟨rfl, rfl⟩ := h
  show loadViaModule noFilesBase (protoRootOf protoPath) globs w0 = _
  unfold loadViaModule
  rw [generateCUEModule_no_files noFilesBase 8 _ globs w0 (fun _ _ => rfl)]

theorem Add_without_protofiles_witness :
    (∀ w0, generateCUEModule noFilesEnv 8 (protoRootOf []) ["protos/*.proto".toList] w0 =
      some (⟨w0.fs, w0.trace ++ [Event.glob "protos/*.proto".toList]⟩, .err noProtofiles)) ∧
    ∃ w3 w' : World,
      w3.trace = emptyWorld.trace ++ [Event.mkdirAll testDir,
        Event.compile (noFilesEnv.toLowerCamel "myTest".toList ++ cueExtension)
          (testCaseSchema "myTest".toList)] ++ [Event.glob "protos/*.proto".toList] ∧
      Add noFilesEnv ["myTest".toList] [] ["protos/*.proto".toList] emptyWorld =
        some (w', .ok ()) ∧
      w'.trace = w3.trace ++ [.validate ⟨testCaseSchema "myTest".toList⟩,
        .create (testCasePath noFilesEnv "myTest".toList),
        .write (testCasePath noFilesEnv "myTest".toList)
          (noFilesEnv.formatInstance ⟨testCaseSchema "myTest".toList⟩)] ∧
      w'.stat (testCasePath noFilesEnv "myTest".toList) =
        some (.file (noFilesEnv.formatInstance ⟨testCaseSchema "myTest".toList⟩)) := by
  obtain ⟨hmod, w3, -, ht3, -, hrest⟩ :=
    Add_without_protofiles noFilesEnv 8 "myTest".toList [] [] ["protos/*.proto".toList]
      emptyWorld ⟨testCaseSchema "myTest".toList⟩ (fun _ _ => rfl) (by decide) (by decide) rfl
      (noFilesEnv_load [] ["protos/*.proto".toList])
  obtain ⟨w', hadd, ht, hs, -⟩ := ((hrest rfl).2 rfl).2 rfl
  exact ⟨hmod, w3, w', ht3, hadd, ht, hs⟩

theorem Add_ok_cases (env : Env) (testName : GoString) (rest : List GoString)
    (protoPath : GoString) (protoFiles : List GoString) (w w' : World)
    (h : Add env (testName :: rest) protoPath protoFiles w = some (w', .ok ())) :
    (w.mkdirAll env testDir).2 = none ∧
    (((w.mkdirAll env testDir).1.stat (testCasePath env testName) ≠ none ∧
        w' = (w.mkdirAll env testDir).1) ∨
     ((w.mkdirAll env testDir).1.stat (testCasePath env testName) = none ∧
        ∃ w2 w3 r ins, w2.fs = (w.mkdirAll env testDir).1.fs ∧
          env.loadSchemasFromProto (protoRootOf protoPath) protoFiles w2 = some (w3, r) ∧
          ∃ w4, w4.fs = w3.fs ∧
            writeTestCase env (testCasePath env testName) ins w4 = (w', .ok ()))) := by
  simp only [Add] at h
  rcases hmr : w.mkdirAll env testDir with ⟨w1, r1⟩
  rw [hmr] at h
  cases r1 with
  | some e => simp at h
  | none =>
    refine ⟨rfl, ?_⟩
    simp only at h ⊢
    cases hs : w1.stat (testCasePath env testName) with
    | some n =>
      left
      simp only [hs, Option.some.injEq, Prod.mk.injEq, and_true] at h
      exact ⟨by simp, h.symm⟩
    | none =>
      right
      refine ⟨rfl, ?_⟩
      simp only [hs] at h
      cases hc : env.compile (env.toLowerCamel testName ++ cueExtension)
          (testCaseSchema testName) with
      | error e => simp [hc] at h
      | ok ins =>
        simp only [hc] at h
        cases hl : env.loadSchemasFromProto (protoRootOf protoPath) protoFiles
            (w1.log (.compile (env.toLowerCamel testName ++ cueExtension)
              (testCaseSchema testName))) with
        | none => simp [hl] at h
        | some x =>
          obtain ⟨w3, r⟩ := x
          simp only [hl] at h
          cases r with
          | panic => simp at h
          | exit code => simp at h
          | err e =>
            simp only at h
            split at h
            · simp only [Option.some.injEq] at h
              exact ⟨w1.log (.compile _ _), w3, _, ins, rfl, hl, w3, rfl, h⟩
            · simp at h
          | ok schemas =>
            simp only [Option.some.injEq] at h
            exact ⟨w1.log (.compile _ _), w3, _, env.merge schemas ins, rfl, hl,
              w3.log (.merge schemas ins), rfl, h⟩

theorem Add_of_existing (env : Env) (testName : GoString) (rest : List GoString)
    (protoPath : GoString) (protoFiles : List GoString) (w : World) (node : Node)
    (hdir : w.stat testDir = some .dir)
    (hfile : w.stat (testCasePath env testName) = some node) :
    Add env (testName :: rest) protoPath protoFiles w =
      some (w.log (.mkdirAll testDir), .ok ()) := by
  simp only [Add, World.mkdirAll_of_dir env w testDir hdir, World.stat_log, hfile]

/-- C9: when the test-case file exists (in the directory `tests`), `Add`
returns without error, with the file system unchanged and the call of
`os.MkdirAll` as its only event: nothing is compiled, merged, validated or
written; and after a call of `Add` that returned without error, a second call
with the same name finds the file, returns without error and leaves the file
system unchanged, provided the helper `loadSchemasFromProto` leaves `tests` a
directory. -/
theorem Add_existing_file_unchanged (env : Env) (testName : GoString) (rest : List GoString)
    (protoPath : GoString) (protoFiles : List GoString) (w : World) (node : Node)
    (w0 w1 : World)
    (hdir : w.stat testDir = some .dir)
    (hfile : w.stat (testCasePath env testName) = some node)
    (hfirst : Add env (testName :: rest) protoPath protoFiles w0 = some (w1, .ok ()))
    (hload : ∀ protoRoot globs wa wb r, env.loadSchemasFromProto protoRoot globs wa = some (wb, r) →
      wa.stat testDir = some .dir → wb.stat testDir = some .dir) :
    (∃ w', Add env (testName :: rest) protoPath protoFiles w = some (w', .ok ()) ∧
      w'.fs = w.fs ∧ w'.trace = w.trace ++ [Event.mkdirAll testDir] ∧
      w'.stat (testCasePath env testName) = some node) ∧
    (∃ n, w1.stat (testCasePath env testName) = some n) ∧
    (∃ w2, Add env (testName :: rest) protoPath protoFiles w1 = some (w2, .ok ()) ∧
      w2.fs = w1.fs ∧ w2.trace = w1.trace ++ [Event.mkdirAll testDir]) := by
  refine ⟨⟨_, Add_of_existing env testName rest protoPath protoFiles w node hdir hfile, rfl, rfl,
    hfile⟩, ?_⟩
  obtain ⟨hmk, hcases⟩ := Add_ok_cases env testName rest protoPath protoFiles w0 w1 hfirst
  have hd := World.mkdirAll_ok env w0 testDir hmk
  have hboth : w1.stat testDir = some .dir ∧ ∃ n, w1.stat (testCasePath env testName) = some n := by
    rcases hcases with ⟨hs, rfl⟩ | ⟨hs, w2, w3, r, ins, hw2, hl, w4, hw4, hwrite⟩
    · exact ⟨hd, Option.ne_none_iff_exists'.mp hs⟩
    · have hne : filepathClean testDir ≠ filepathClean (testCasePath env testName) := by
        intro heq
        have h1 : (w0.mkdirAll env testDir).1.stat testDir =
            (w0.mkdirAll env testDir).1.stat (testCasePath env testName) := by
          simp only [World.stat, heq]
        rw [hd, hs] at h1
        exact absurd h1 (by simp)
      have hd2 : w2.stat testDir = some .dir := by
        simpa only [World.stat, hw2] using hd
      have hd3 := hload _ _ _ _ _ hl hd2
      have hd4 : w4.stat testDir = some .dir := by
        simpa only [World.stat, hw4] using hd3
      obtain ⟨-, hok⟩ := writeTestCase_spec env (testCasePath env testName) ins w4
      rw [hwrite] at hok
      obtain ⟨-, hs1, hother⟩ := hok rfl
      exact ⟨by rw [hother testDir hne]; exact hd4, _, hs1⟩
  obtain ⟨hd1, n, hn⟩ := hboth
  exact ⟨⟨n, hn⟩, _, Add_of_existing env testName rest protoPath protoFiles w1 n hd1 hn, rfl, rfl⟩

theorem chainEnv_Add_first :
    ∃ w1, Add chainEnv ["myTest".toList] [] [] emptyWorld = some (w1, .ok ()) := by
  have h : (Add chainEnv ["myTest".toList] [] [] emptyWorld).map (fun x => x.2) =
      some (.ok ()) := by decide
  obtain ⟨⟨w1, r⟩, hr, hx⟩ := Option.map_eq_some'.mp h
  simp only at hx
  subst hx
  exact ⟨w1, hr⟩

theorem chainEnv_load_keeps_testDir (protoRoot : GoString) (globs : List GoString)
    (wa wb : World) (r : Res Instance)
    (h : chainEnv.loadSchemasFromProto protoRoot globs wa = some (wb, r))
    (hd : wa.stat testDir = some .dir) : wb.stat testDir = some .dir := by
  simp only [chainEnv, exampleEnv, loadNothing, Option.some.injEq, Prod.mk.injEq] at h
  obtain ⟨rfl, -⟩ := h
  exact hd

theorem Add_existing_file_unchanged_witness :
    testWorld.stat testDir = some .dir ∧
    testWorld.stat (testCasePath chainEnv "myTest".toList) =
      some (.file "name: \"myTest\"".toList) ∧
    ∃ w1, Add chainEnv ["myTest".toList] [] [] emptyWorld = some (w1, .ok ()) ∧
      (∃ w', Add chainEnv ["myTest".toList] [] [] testWorld = some (w', .ok ()) ∧
        w'.fs = testWorld.fs ∧ w'.trace = testWorld.trace ++ [Event.mkdirAll testDir] ∧
        w'.stat (testCasePath chainEnv "myTest".toList) =
          some (.file "name: \"myTest\"".toList)) ∧
      (∃ n, w1.stat (testCasePath chainEnv "myTest".toList) = some n) ∧
      (∃ w2, Add chainEnv ["myTest".toList] [] [] w1 = some (w2, .ok ()) ∧
        w2.fs = w1.fs ∧ w2.trace = w1.trace ++ [Event.mkdirAll testDir]) := by
  obtain ⟨w1, hfirst⟩ := chainEnv_Add_first
  exact ⟨by decide, by decide, w1, hfirst,
    Add_existing_file_unchanged chainEnv "myTest".toList [] [] [] testWorld
      (.file "name: \"myTest\"".toList) emptyWorld w1 (by decide) (by decide) hfirst
      chainEnv_load_keeps_testDir⟩

end Grpctl
